import Mathlib

/-!
Verification of the connection/tunnel orchestration and host-identity
verification core of helix-dadbod, a Rust tool giving on-demand, optionally
SSH-tunneled access to PostgreSQL databases.

The development shallowly embeds the relevant Rust functions over `List Char`
strings and explicit state records:

* `src/known_hosts.rs` : `verify_host_key`, `check_plaintext_host`,
  `pattern_match`, `check_hashed_host`, `keys_match` — pure functions over the
  trust-store text, with the external crypto (base64, HMAC-SHA1, russh key
  parsing) abstracted as oracle parameters.
* `src/connection.rs` : `strip_sql_comments` (character-level translation of
  the imperative loop), the output formatting of `execute_query`, and the
  cache discipline of `get_or_create_connection` as a state-passing function
  with oracles for the external effects (SSH, database dial, workspace I/O).
* `src/tunnel.rs` : `PortAllocator::allocate` / `deallocate` and the
  `TunnelManager` tunnel map, with the live OS bind probe abstracted as a
  `bindOk` oracle.

Spec-side definitions (standard glob semantics, per-line acceptance
predicates, first-fit characterisations) are written from the specification's
wording and compared against the embedded code by theorems.
-/

/- ### Basic character-list utilities (models of Rust `str` operations) -/

/-- ASCII whitespace test modelling the whitespace class used by Rust's
`str::trim` / `split_whitespace` on the ASCII inputs that occur here. -/
def isWsChar (c : Char) : Bool :=
  c = ' ' || c = '\t' || c = '\n' || c = '\r'

/-- Drop leading whitespace (left half of Rust `str::trim`). -/
def trimLeft (l : List Char) : List Char :=
  l.dropWhile isWsChar

/-- Drop trailing whitespace (right half of Rust `str::trim`). -/
def trimRight : List Char → List Char
  | [] => []
  | c :: cs =>
    match trimRight cs with
    | [] => if isWsChar c then [] else [c]
    | r => c :: r

/-- Model of Rust `str::trim`: drop whitespace at both ends. -/
def trimChars (l : List Char) : List Char :=
  trimRight (trimLeft l)

/-- Rust `str::trim` lifted to Lean `String`. -/
def strTrim (s : String) : String :=
  ⟨trimChars s.data⟩

/-- Model of Rust `str::split(sep)`: split at every separator, keeping empty
pieces (splitting the empty string yields one empty piece). -/
def splitOnChar (sep : Char) : List Char → List (List Char)
  | [] => [[]]
  | c :: cs =>
    if c = sep then [] :: splitOnChar sep cs
    else
      match splitOnChar sep cs with
      | [] => [[c]]
      | r :: rs => (c :: r) :: rs

/-- Join pieces with a separator character; left inverse of `splitOnChar`. -/
def joinSep (sep : Char) : List (List Char) → List Char
  | [] => []
  | [p] => p
  | p :: q :: ps => p ++ sep :: joinSep sep (q :: ps)

/-- Worker for `splitWs`; `acc` is the token currently being read. -/
def splitWsAux : List Char → List Char → List (List Char)
  | [], acc => if acc = [] then [] else [acc]
  | c :: cs, acc =>
    if isWsChar c then
      if acc = [] then splitWsAux cs [] else acc :: splitWsAux cs []
    else splitWsAux cs (acc ++ [c])

/-- Model of Rust `str::split_whitespace`: whitespace-separated tokens,
with no empty tokens. -/
def splitWs (l : List Char) : List (List Char) :=
  splitWsAux l []

/-- Does the list start with the given sequence (Rust `str::starts_with`)? -/
def startsWithL : List Char → List Char → Bool
  | _, [] => true
  | [], _ :: _ => false
  | a :: as, b :: bs => a = b && startsWithL as bs

/-- Does `hay` contain `needle` as a contiguous run (Rust `str::contains`)? -/
def containsSub : List Char → List Char → Bool
  | [], needle => needle.isEmpty
  | c :: rest, needle => startsWithL (c :: rest) needle || containsSub rest needle

/-- Substring test on `String`s. -/
def strContains (hay needle : String) : Bool :=
  containsSub hay.data needle.data

/-- All nonempty suffixes of a list, longest first. -/
def neTails : List Char → List (List Char)
  | [] => []
  | c :: t => (c :: t) :: neTails t

/-- All suffixes of a list, longest first, including the empty suffix. -/
def tailsAll : List Char → List (List Char)
  | [] => [[]]
  | c :: t => (c :: t) :: tailsAll t

/- ### known_hosts.rs : host-key verification -/

/-- Model of a russh public key, identified by its canonical base64 encoding
(the only observation `known_hosts.rs` makes of a key is
`public_key_base64()`). -/
structure PublicKey where
  b64 : List Char
deriving DecidableEq

/-- Source `keys_match` (`known_hosts.rs:239`): compare two public keys by
their canonical base64 encodings. -/
def keys_match (key1 key2 : PublicKey) : Bool :=
  key1.b64 == key2.b64

/-- Oracle bundle for the external crates used by `known_hosts.rs`:
`base64` encode/decode, `hmac`/`sha1`, and russh public-key parsing
(`parse_public_key` combines the base64 decode of the key material with
`russh_keys::key::parse_public_key`; the `key_type` field only feeds error
messages in the source, so it does not appear as an argument). -/
structure CryptoOracle where
  b64decode : List Char → Option (List Nat)
  b64encode : List Nat → List Char
  hmacSha1 : List Nat → List Char → List Nat
  parsePK : List Char → Option PublicKey

/-- Source `parse_public_key` (`known_hosts.rs:225`): decode and parse the
key material; failure is an `Err` in Rust, `none` here. The `key_type`
argument is kept to mirror the source signature; the source only uses it in
error messages. -/
def parse_public_key (co : CryptoOracle) (key_type key_data : List Char) :
    Option PublicKey :=
  let _ := key_type
  co.parsePK key_data

/-- Source `check_hashed_host` (`known_hosts.rs:195`): an entry
`|1|salt_b64|hash_b64` matches when HMAC-SHA1 keyed by the decoded salt over
the hostname, base64-encoded, equals the stored hash. `none` models the Rust
`Err` (salt fails to decode); HMAC key setup never fails for HMAC, so it is
total here. -/
def check_hashed_host (co : CryptoOracle) (hostname hashed_entry : List Char) :
    Option Bool :=
  match splitOnChar '|' hashed_entry with
  | [p0, p1, salt_b64, expected_hash_b64] =>
    if p0 = [] ∧ p1 = ['1'] then
      match co.b64decode salt_b64 with
      | none => none
      | some salt =>
        some (co.b64encode (co.hmacSha1 salt hostname) == expected_hash_b64)
    else some false
  | _ => some false

/-- Body of the wildcard loop of source `pattern_match`
(`known_hosts.rs:151-190`), by recursion on the pattern. In the `*` branch
the source re-enters the full `pattern_match` on every nonempty suffix of the
remaining hostname; that call's preliminary special cases (`pattern == "*"`,
wildcard-free equality) are inlined in the lambda. -/
def patternLoop : List Char → List Char → Bool
  | [], h => h.isEmpty
  | c :: ps, h =>
    if c = '*' then
      if ps = [] then true
      else
        (neTails h).any fun h2 =>
          if ps == ['*'] then true
          else if !(ps.contains '*') && !(ps.contains '?') then h2 == ps
          else patternLoop ps h2
    else if c = '?' then
      match h with
      | [] => false
      | _ :: t => patternLoop ps t
    else
      match h with
      | [] => false
      | hc :: t => if hc = c then patternLoop ps t else false

/-- Source `pattern_match` (`known_hosts.rs:141`): the special cases for
`"*"` and wildcard-free patterns, then the character loop. -/
def pattern_match (hostname pattern : List Char) : Bool :=
  if pattern == ['*'] then true
  else if !(pattern.contains '*') && !(pattern.contains '?') then
    hostname == pattern
  else patternLoop pattern hostname

/-- Source `check_plaintext_host` (`known_hosts.rs:126`): some comma-separated
piece equals the hostname or glob-matches it. -/
def check_plaintext_host (hostname pattern : List Char) : Bool :=
  (splitOnChar ',' pattern).any fun host =>
    host == hostname || pattern_match hostname host

/-- Lookup string built by `verify_host_key` (`known_hosts.rs:30-34`):
the bare hostname for the default port 22, `[hostname]:port` otherwise. -/
def hostPattern (hostname : List Char) (port : Nat) : List Char :=
  if port = 22 then hostname
  else '[' :: hostname ++ ']' :: ':' :: (Nat.repr port).data

/-- Host-field decision of one `verify_host_key` line
(`known_hosts.rs:62-81`): hashed branch when the field starts with `|1|`
(a Rust `Err` from `check_hashed_host` counts as no match), plaintext branch
otherwise. -/
def hostFieldMatches (co : CryptoOracle) (host_pattern host_part : List Char) :
    Bool :=
  if startsWithL host_part ['|', '1', '|'] then
    match check_hashed_host co host_pattern host_part with
    | some m => m
    | none => false
  else check_plaintext_host host_pattern host_part

/-- Line scan of `verify_host_key` (`known_hosts.rs:41-110`): skip blank and
`#` lines and lines with fewer than three whitespace-separated fields; on a
host match, a parsed stored key equal (by `keys_match`) to the server key is
a success; every other case continues with the next line. -/
def scanLines (co : CryptoOracle) (host_pattern : List Char)
    (server_key : PublicKey) : List (List Char) → Bool
  | [] => false
  | line :: rest =>
    let l := trimChars line
    if l.isEmpty || startsWithL l ['#'] then
      scanLines co host_pattern server_key rest
    else
      match splitWs l with
      | host_part :: key_type :: key_data :: _ =>
        if hostFieldMatches co host_pattern host_part then
          match parse_public_key co key_type key_data with
          | some known_key =>
            if keys_match server_key known_key then true
            else scanLines co host_pattern server_key rest
          | none => scanLines co host_pattern server_key rest
        else scanLines co host_pattern server_key rest
      | _ => scanLines co host_pattern server_key rest

/-- Source `verify_host_key` (`known_hosts.rs:8`): `false` when the
known-hosts file does not exist, otherwise the line scan over the file's
lines. File-read errors (`Err` in Rust) are outside this model: `fileLines`
is the successfully read content. -/
def verify_host_key (co : CryptoOracle) (fileExists : Bool)
    (fileLines : List (List Char)) (hostname : List Char) (port : Nat)
    (server_key : PublicKey) : Bool :=
  if !fileExists then false
  else scanLines co (hostPattern hostname port) server_key fileLines

/- ### Spec-side definitions for the host-key claims -/

/-- Modelled from the spec: standard glob semantics — `*` matches any run of
characters including the empty run, `?` matches exactly one character,
resolved recursively over the remaining pattern and input. -/
def specGlobMatch : List Char → List Char → Bool
  | [], h => h.isEmpty
  | c :: ps, h =>
    if c = '*' then (tailsAll h).any fun t => specGlobMatch ps t
    else if c = '?' then
      match h with
      | [] => false
      | _ :: t => specGlobMatch ps t
    else
      match h with
      | [] => false
      | hc :: t => hc == c && specGlobMatch ps t

/-- Modelled from the spec: a plaintext host-field matches when at least one
comma-separated piece equals the lookup string or glob-matches it. -/
def specHostFieldMatch (lookup field : List Char) : Bool :=
  (splitOnChar ',' field).any fun pat =>
    pat == lookup || specGlobMatch pat lookup

/-- No two consecutive `*` characters occur in the pattern. -/
def noDoubleStar : List Char → Bool
  | [] => true
  | [_] => true
  | a :: b :: rest => !(a = '*' && b = '*') && noDoubleStar (b :: rest)

/-- Modelled from the spec: one trust-store line produces both a host match
and a key match — after trimming it is not blank or a comment, has at least
three whitespace-separated fields, its host-field matches the lookup string,
and its key material parses to a key whose canonical base64 encoding equals
the presented key's. -/
def lineProducesMatch (co : CryptoOracle) (host_pattern : List Char)
    (server_key : PublicKey) (line : List Char) : Bool :=
  let l := trimChars line
  if l.isEmpty || startsWithL l ['#'] then false
  else
    match splitWs l with
    | host_part :: key_type :: key_data :: _ =>
      hostFieldMatches co host_pattern host_part &&
        match parse_public_key co key_type key_data with
        | some known_key => keys_match server_key known_key
        | none => false
    | _ => false

/-- Modelled from the spec: a hashed host-field matches when it has the exact
shape `|1|salt|hash`, the salt decodes from base64, and the base64 encoding
of HMAC-SHA1 keyed by the decoded salt over the lookup string equals the
stored hash field exactly. -/
def SpecHashedMatch (co : CryptoOracle) (lookup field : List Char) : Prop :=
  ∃ salt hash : List Char,
    field = ['|', '1', '|'] ++ salt ++ '|' :: hash ∧
    '|' ∉ salt ∧ '|' ∉ hash ∧
    ∃ saltBytes, co.b64decode salt = some saltBytes ∧
      co.b64encode (co.hmacSha1 saltBytes lookup) = hash

/-- Effective hashed-entry decision inside `verify_host_key`: the
`check_hashed_host` result with a Rust `Err` counting as no match. -/
def hashedFieldMatches (co : CryptoOracle) (lookup field : List Char) : Bool :=
  match check_hashed_host co lookup field with
  | some m => m
  | none => false

/- ### connection.rs : strip_sql_comments -/

/-- Line-flush helper of `strip_sql_comments` (`connection.rs:345-353`,
`373-381`, `387-394`): append the trimmed current line to the result when it
is nonempty, separating accumulated lines with a newline. -/
def pushLine (res cur : List Char) : List Char :=
  let t := trimChars cur
  if t = [] then res
  else if res = [] then t
  else res ++ '\n' :: t

/-- Main loop of source `strip_sql_comments` (`connection.rs:331-394`),
processing the input character list with the two comment-state flags, the
current line, and the accumulated result. The two-character lookahead of the
Rust `peekable` iterator is matched by splitting on the first two characters;
the one-character case is the loop iteration whose `peek` is `None` followed
by the final line flush. -/
def stripLoop (inMl inSl : Bool) (cur res : List Char) :
    List Char → List Char
  | [] => pushLine res cur
  | [ch] =>
    if inMl then pushLine res cur
    else if inSl then
      if ch = '\n' then pushLine (pushLine res cur) [] else pushLine res cur
    else if ch = '\n' then pushLine (pushLine res cur) []
    else pushLine res (cur ++ [ch])
  | ch :: ch2 :: rest =>
    if inMl then
      if ch = '*' ∧ ch2 = '/' then stripLoop false inSl cur res rest
      else stripLoop inMl inSl cur res (ch2 :: rest)
    else if inSl then
      if ch = '\n' then stripLoop inMl false [] (pushLine res cur) (ch2 :: rest)
      else stripLoop inMl inSl cur res (ch2 :: rest)
    else if ch = '-' ∧ ch2 = '-' then stripLoop inMl true cur res rest
    else if ch = '/' ∧ ch2 = '*' then stripLoop true inSl cur res rest
    else if ch = '\n' then stripLoop inMl inSl [] (pushLine res cur) (ch2 :: rest)
    else stripLoop inMl inSl (cur ++ [ch]) res (ch2 :: rest)

/-- Space-normalisation pass of `strip_sql_comments`
(`connection.rs:397-409`): collapse runs of spaces to a single space. -/
def collapseSpaces (lastWasSpace : Bool) : List Char → List Char
  | [] => []
  | c :: cs =>
    if c = ' ' then
      if lastWasSpace then collapseSpaces true cs
      else ' ' :: collapseSpaces true cs
    else c :: collapseSpaces false cs

/-- Character-list core of `strip_sql_comments`. -/
def stripAll (l : List Char) : List Char :=
  collapseSpaces false (stripLoop false false [] [] l)

/-- Source `ConnectionManager::strip_sql_comments` (`connection.rs:324`). -/
def strip_sql_comments (sql : String) : String :=
  ⟨stripAll sql.data⟩

/-- Neither comment opener — `--` nor `/*` — occurs in the list. -/
def openerFree (l : List Char) : Bool :=
  !(containsSub l ['-', '-']) && !(containsSub l ['/', '*'])

/- ### connection.rs : execute_query output model -/

/-- Outcome of `client.query` (`connection.rs:462`) as observed by
`execute_query`: a row count with the rendered `comfy_table` text (the table
rendering itself is an external collaborator), a database error carrying an
engine message, or another error with its display text. -/
inductive QueryOutcome where
  | ok (rowCount : Nat) (rendered : String)
  | errDb (msg : String)
  | errOther (msg : String)

/-- Success payload of `execute_query` (`connection.rs:474-514`): timestamp,
execution time, row count, then either the no-rows marker or the rendered
table. `durStr` is the externally formatted `{:.3}` seconds value. -/
def buildSuccessOutput (timestamp durStr : String) (rowCount : Nat)
    (rendered : String) : String :=
  "-- Executed at: " ++ timestamp ++ "\n" ++
    "-- Execution time: " ++ durStr ++ "s\n" ++
    "-- Rows returned: " ++ Nat.repr rowCount ++ "\n" ++ "\n" ++
    (if rowCount = 0 then "(No rows returned)\n" else rendered)

/-- Failure payload of `execute_query` (`connection.rs:527-545`): timestamp,
execution time, the error message, then the SQL that was executed. -/
def buildErrorOutput (timestamp durStr errMsg actualSql : String) : String :=
  "-- Executed at: " ++ timestamp ++ "\n" ++
    "-- Execution time: " ++ durStr ++ "s\n" ++ "\n" ++
    "ERROR: " ++ errMsg ++ "\n" ++ "\n" ++
    "-- Generated SQL:\n" ++ actualSql ++ "\n"

/-- Empty-input payload of `execute_query` (`connection.rs:429-432`). -/
def noQueryMsg (sqlFilePath : String) : String :=
  "-- Error: No SQL query found\n" ++
    "-- Write your SQL query to: " ++ sqlFilePath ++ "\n"

/-- SQL actually executed (`connection.rs:442-450`): the meta-command
translator (an external collaborator per the spec, `MetaCommand::parse` +
`to_sql` modelled by the oracle `metaTranslate`) runs on the comment-stripped
trimmed input; a recognised shorthand yields its generated SQL, anything else
passes the trimmed input through literally. `to_sql` never fails in the
source, so the oracle is total on recognised commands. -/
def actualSqlOf (metaTranslate : String → Option String) (sql : String) :
    String :=
  match metaTranslate (strip_sql_comments sql) with
  | some generated => generated
  | none => sql

deriving instance DecidableEq for Except

/-- Observable result of one `execute_query` call. -/
structure ExecResult where
  callerResult : Except String Unit
  written : Option String
  ranQuery : Bool
deriving DecidableEq

/-- Source `execute_query` (`connection.rs:415-552`) for an active connection
whose workspace I/O succeeds: `input` is the text read from the workspace,
`outcome` the database's answer to the executed SQL, `timestamp`/`durStr` the
externally produced clock values. Whitespace-only input writes the reported
message and runs no query; otherwise the query runs and both the success and
the failure payloads are written, with `Ok(())` returned in every case. -/
def execute_query (metaTranslate : String → Option String)
    (input : String) (outcome : QueryOutcome)
    (timestamp durStr sqlFilePath : String) : ExecResult :=
  let sql := strTrim input
  if sql = "" then
    { callerResult := .ok (), written := some (noQueryMsg sqlFilePath),
      ranQuery := false }
  else
    let actualSql := actualSqlOf metaTranslate sql
    match outcome with
    | .ok rowCount rendered =>
      { callerResult := .ok (),
        written := some (buildSuccessOutput timestamp durStr rowCount rendered),
        ranQuery := true }
    | .errDb msg =>
      { callerResult := .ok (),
        written := some (buildErrorOutput timestamp durStr msg actualSql),
        ranQuery := true }
    | .errOther msg =>
      { callerResult := .ok (),
        written := some (buildErrorOutput timestamp durStr msg actualSql),
        ranQuery := true }

/- ### tunnel.rs : PortAllocator -/

/-- Allocator table (`tunnel.rs:93-95`): local port to owning connection name.
The Rust `HashMap` is modelled as an association list with unique port keys;
`allocate` inserts at the back. -/
abbrev AllocState := List (Nat × String)

/-- Tunnel port range 7001-7020 (`tunnel.rs:15-16`), ascending. -/
def portRange : List Nat := List.range' 7001 20

/-- Is the port tracked in the allocator table (`self.allocated.contains_key`)? -/
def trackedPort (st : AllocState) (port : Nat) : Bool :=
  st.any fun e => e.1 == port

/-- Port already owned by the connection name, if any (`tunnel.rs:106-110`).
The Rust `HashMap` iteration order is arbitrary; since `allocate` never
gives one name two ports, the table holds at most one entry per name and the
first list hit is that entry. -/
def ownedPort (st : AllocState) (connection_name : String) : Option Nat :=
  match st.find? (fun e => e.2 == connection_name) with
  | some e => some e.1
  | none => none

/-- Scan of the port range (`tunnel.rs:113-130`): skip tracked ports, probe
the rest with a live OS bind (the `bindOk` oracle), record and return the
first success; `none` is the `ResourceExhausted` bail at `tunnel.rs:132`. -/
def scanPorts (bindOk : Nat → Bool) (st : AllocState)
    (connection_name : String) : List Nat → Option (Nat × AllocState)
  | [] => none
  | port :: ports =>
    if trackedPort st port then scanPorts bindOk st connection_name ports
    else if bindOk port then some (port, st ++ [(port, connection_name)])
    else scanPorts bindOk st connection_name ports

/-- Source `PortAllocator::allocate` (`tunnel.rs:104`): return the port the
name already owns, else scan the range. -/
def allocate (bindOk : Nat → Bool) (st : AllocState)
    (connection_name : String) : Option (Nat × AllocState) :=
  match ownedPort st connection_name with
  | some port => some (port, st)
  | none => scanPorts bindOk st connection_name portRange

/-- Source `PortAllocator::deallocate` (`tunnel.rs:139`): drop the port's
tracking entry. -/
def deallocate (st : AllocState) (port : Nat) : AllocState :=
  st.filter fun e => e.1 ≠ port

/- ### tunnel.rs : TunnelManager -/

/-- Tunnel manager state (`tunnel.rs:77-81`): the name-to-tunnel map (each
tunnel observed by its local port; the russh session and forwarding task are
external) and the port allocator table. -/
structure TunnelState where
  tunnels : List (String × Nat)
  alloc : AllocState
deriving DecidableEq

/-- Source `TunnelManager::get_or_create_tunnel` (`tunnel.rs:154-189`):
return an existing tunnel's port; otherwise allocate a port and run
`create_tunnel` (SSH connect, auth, host-key check, listener bind — its
success is the `createOk` oracle). On creation failure the error propagates
with no deallocation of the freshly allocated port (`tunnel.rs:176-184`). -/
def get_or_create_tunnel (bindOk : Nat → Bool) (createOk : Bool)
    (connection_name : String) (st : TunnelState) :
    Option Nat × TunnelState :=
  match st.tunnels.find? (fun e => e.1 == connection_name) with
  | some e => (some e.2, st)
  | none =>
    match allocate bindOk st.alloc connection_name with
    | none => (none, st)
    | some (local_port, alloc2) =>
      if createOk then
        (some local_port,
          { tunnels := st.tunnels ++ [(connection_name, local_port)],
            alloc := alloc2 })
      else (none, { st with alloc := alloc2 })

/-- Source `TunnelManager::close_tunnel` (`tunnel.rs:476-489`): remove the
record, deallocate its port, abort the forwarding task; no-op when absent. -/
def close_tunnel (connection_name : String) (st : TunnelState) : TunnelState :=
  match st.tunnels.find? (fun e => e.1 == connection_name) with
  | some e =>
    { tunnels := st.tunnels.filter (fun x => x.1 ≠ connection_name),
      alloc := deallocate st.alloc e.2 }
  | none => st

/-- Source `TunnelManager::close_all` (`tunnel.rs:492-503`): drain the map,
deallocating every drained tunnel's port. -/
def close_all_tunnels (st : TunnelState) : TunnelState :=
  { tunnels := [],
    alloc := st.tunnels.foldl (fun a e => deallocate a e.2) st.alloc }

/-- Spec invariant for C4: a port is tracked in the allocator table exactly
when an active tunnel with that local port exists. -/
def portsConsistent (st : TunnelState) : Prop :=
  ∀ p, trackedPort st.alloc p = true ↔ ∃ e ∈ st.tunnels, e.2 = p

/- ### config.rs / connection.rs : ConnectionManager -/

/-- Tunnel spec of a descriptor (`config.rs:36-48`): inline SSH parameters or
a named SSH-config reference. Its payload only feeds `create_tunnel`, which
the `createOk` oracle models. -/
inductive SshTunnel where
  | Explicit (host : String) (port : Nat) (user : String)
      (key_path : Option String)
  | ConfigRef (ssh_config : String)
deriving DecidableEq

/-- Connection descriptor (`config.rs:21-32`). -/
structure Connection where
  name : String
  db_type : String
  host : String
  port : Nat
  database : String
  username : String
  password : Option String
  ssh_tunnel : Option SshTunnel
deriving DecidableEq

/-- Loaded configuration (`config.rs:6-14`), restricted to the fields the
connection manager reads. -/
structure SqlConfig where
  connections : List Connection
  skip_host_key_verification : Bool
deriving DecidableEq

/-- Source `SqlConfig::get_connection` (`config.rs:97`). -/
def SqlConfig.get_connection (cfg : SqlConfig) (name : String) :
    Option Connection :=
  cfg.connections.find? fun c => c.name == name

/-- Cached active connection (`connection.rs:22-28`): the database session is
observed by the serial number of the dial that produced it; the workspace by
the connection name that determines its paths. -/
structure ActiveConn where
  sessionId : Nat
  uses_tunnel : Bool
  local_port : Option Nat
  workspace : String
deriving DecidableEq

/-- Error taxonomy of the connect path (spec section 7). -/
inductive CMError where
  | configError
  | unsupportedType
  | tunnelError
  | dialError
  | workspaceError
deriving DecidableEq

/-- Connection manager state (`connection.rs:15-19`): the active-connection
cache, the owned tunnel manager, and a counter of database dials performed
(the dial-count instrumentation the spec's idempotence property asks for;
`tokio_postgres::connect` outcomes come from the `dialOk` oracle). -/
structure CMState where
  active : List (String × ActiveConn)
  tm : TunnelState
  dials : Nat
deriving DecidableEq

/-- Source `ConnectionManager::create_postgres_connection`
(`connection.rs:81-128`): establish the tunnel when the descriptor has one,
dial the database (counted), create the workspace, and return the new
`ActiveConn`; each step's failure aborts with a typed error. -/
def create_postgres_connection (bindOk : Nat → Bool)
    (createOk dialOk wsOk : Bool) (conn : Connection) (st : CMState) :
    Except CMError ActiveConn × CMState :=
  match conn.ssh_tunnel with
  | some _ =>
    match get_or_create_tunnel bindOk createOk conn.name st.tm with
    | (none, tm2) => (.error .tunnelError, { st with tm := tm2 })
    | (some local_port, tm2) =>
      let st2 : CMState := { st with tm := tm2, dials := st.dials + 1 }
      if dialOk then
        if wsOk then
          (.ok { sessionId := st.dials, uses_tunnel := true,
                 local_port := some local_port, workspace := conn.name }, st2)
        else (.error .workspaceError, st2)
      else (.error .dialError, st2)
  | none =>
    let st2 : CMState := { st with dials := st.dials + 1 }
    if dialOk then
      if wsOk then
        (.ok { sessionId := st.dials, uses_tunnel := false,
               local_port := none, workspace := conn.name }, st2)
      else (.error .workspaceError, st2)
    else (.error .dialError, st2)

/-- Source `ConnectionManager::create_connection` (`connection.rs:73-78`):
dispatch on the engine type; anything but postgres is unsupported. -/
def create_connection (bindOk : Nat → Bool) (createOk dialOk wsOk : Bool)
    (conn : Connection) (st : CMState) : Except CMError ActiveConn × CMState :=
  if conn.db_type = "postgres" ∨ conn.db_type = "postgresql" then
    create_postgres_connection bindOk createOk dialOk wsOk conn st
  else (.error .unsupportedType, st)

/-- Source `ConnectionManager::get_or_create_connection`
(`connection.rs:46-70`): return the cached connection's workspace when
present; otherwise resolve the descriptor (configuration error when
unknown), create the connection, and insert it into the cache only on full
success. -/
def get_or_create_connection (bindOk : Nat → Bool)
    (createOk dialOk wsOk : Bool) (cfg : SqlConfig) (name : String)
    (st : CMState) : Except CMError String × CMState :=
  match st.active.find? (fun e => e.1 == name) with
  | some e => (.ok e.2.workspace, st)
  | none =>
    match cfg.get_connection name with
    | none => (.error .configError, st)
    | some conn =>
      match create_connection bindOk createOk dialOk wsOk conn st with
      | (.error e, st2) => (.error e, st2)
      | (.ok active, st2) =>
        (.ok active.workspace,
          { st2 with active := st2.active ++ [(name, active)] })

/- ### Concrete fixtures used by witness theorems -/

/-- Concrete crypto oracle for witnesses: decoding maps characters to their
code points (failing on the designated string `!`), encoding maps back, and
the keyed digest ignores its key and returns the message's code points. -/
def coW : CryptoOracle where
  b64decode := fun s => if s = ['!'] then none else some (s.map Char.toNat)
  b64encode := fun bs => bs.map Char.ofNat
  hmacSha1 := fun _salt msg => msg.map Char.toNat
  parsePK := fun d => if d = ['B', 'A', 'D'] then none else some ⟨d⟩

/-- Meta-command translator oracle recognising no shorthand. -/
def mpNone : String → Option String := fun _ => none

/-- Empty tunnel-manager state. -/
def tm0 : TunnelState := { tunnels := [], alloc := [] }

/-- One-descriptor configuration for witnesses: a direct (untunneled)
postgres connection named `db1`. -/
def cfgW : SqlConfig where
  connections := [{ name := "db1", db_type := "postgres", host := "h",
                    port := 5432, database := "d", username := "u",
                    password := none, ssh_tunnel := none }]
  skip_host_key_verification := false

/-- Empty connection-manager state. -/
def cm0 : CMState := { active := [], tm := tm0, dials := 0 }

/- ### Structural predicates for the C8 idempotence analysis -/

/-- Shape of a line as emitted by the stripping loop: nonempty, already
trimmed, and newline-free. -/
def goodLine (l : List Char) : Prop :=
  l ≠ [] ∧ trimChars l = l ∧ '\n' ∉ l

/-- Lines contributed by flushing a current-line buffer: none when it trims
to nothing, otherwise its trim. -/
def optLine (cur : List Char) : List (List Char) :=
  if trimChars cur = [] then [] else [trimChars cur]

/- ### Lemmas: port allocator -/

/-- Boolean-to-propositional bridge used throughout. -/
theorem bool_of_iff {a b : Bool} (h : a = true ↔ b = true) : a = b :=
  Bool.eq_iff_iff.2 h

/-- First-fit characterisation of the range scan: it returns the first port
of the list that is untracked and passes the bind probe, recorded at the back
of the table. -/
theorem scanPorts_eq_firstFit (bindOk : Nat → Bool) (st : AllocState)
    (name : String) (ports : List Nat) :
    scanPorts bindOk st name ports =
      ((ports.filter fun p => !trackedPort st p && bindOk p).head?).map
        (fun p => (p, st ++ [(p, name)])) := by
  induction ports with
  | nil => rfl
  | cons port ports ih =>
    by_cases ht : trackedPort st port
    · simp [scanPorts, ht, List.filter_cons, ih]
    · by_cases hb : bindOk port
      · simp [scanPorts, ht, hb, List.filter_cons]
      · simp [scanPorts, ht, hb, List.filter_cons, ih]

/-- C5: `allocate` returns the port its caller already owns without touching
the table; otherwise it returns the first port of the ascending range
7001-7020 that is untracked and passes the live bind probe, recording it, and
fails (resource exhausted) exactly when no port of the range qualifies;
`deallocate` removes exactly that port's tracking entries. -/
theorem C5_allocate_first_fit (bindOk : Nat → Bool) (st : AllocState)
    (name : String) :
    (∀ p, (p, name) ∈ st → (∀ q, (q, name) ∈ st → q = p) →
      allocate bindOk st name = some (p, st)) ∧
    ((∀ e ∈ st, e.2 ≠ name) →
      allocate bindOk st name =
        ((portRange.filter fun p => !trackedPort st p && bindOk p).head?).map
          (fun p => (p, st ++ [(p, name)]))) ∧
    (∀ p q name2, (q, name2) ∈ deallocate st p ↔ (q, name2) ∈ st ∧ q ≠ p) := by
  refine ⟨?_, ?_, ?_⟩
  · intro p hp huniq
    have hsome : (st.find? fun e => e.2 == name).isSome := by
      exact List.find?_isSome.2 ⟨(p, name), hp, by simp⟩
    rcases Option.isSome_iff_exists.1 hsome with ⟨e, he⟩
    have hmem : e ∈ st := List.mem_of_find?_eq_some he
    have hname : e.2 = name := by
      have := List.find?_some he
      simpa using this
    have hep : e.1 = p := by
      have : (e.1, name) ∈ st := by
        have : e = (e.1, e.2) := rfl
        rw [hname] at this
        rwa [this] at hmem
      exact huniq e.1 this
    simp [allocate, ownedPort, he, hep]
  · intro hnone
    have hfind : (st.find? fun e => e.2 == name) = none := by
      refine List.find?_eq_none.2 ?_
      intro e he
      simpa using hnone e he
    simp [allocate, ownedPort, hfind, scanPorts_eq_firstFit]
  · intro p q name2
    constructor
    · intro h
      have := List.mem_filter.1 h
      refine ⟨this.1, ?_⟩
      simpa using this.2
    · intro h
      exact List.mem_filter.2 ⟨h.1, by simpa using h.2⟩

/-- C5 witness: in a table where `a` owns 7005, `allocate` for `a` returns
7005 unchanged; in a table tracking only 7001 for `b`, `allocate` for `c`
(with every probe succeeding) skips 7001 and records 7002. -/
theorem C5_allocate_first_fit_witness :
    allocate (fun _ => true) [(7005, "a")] "a" = some (7005, [(7005, "a")]) ∧
    allocate (fun _ => true) [(7001, "b")] "c" =
      some (7002, [(7001, "b"), (7002, "c")]) := by
  constructor
  · exact (C5_allocate_first_fit (fun _ => true) [(7005, "a")] "a").1 7005
      (by decide) (by intro q hq; simpa using hq)
  · have h := (C5_allocate_first_fit (fun _ => true) [(7001, "b")] "c").2.1
      (by intro e he; simp at he; simp [he])
    rw [h]
    decide

/- ### C4: port-reservation invariant -/

/-- C4: evaluation of the failing scenario. Starting from the empty tunnel
manager, a `get_or_create_tunnel` call whose port allocation succeeds (every
bind probe passes, so port 7001 is taken) but whose tunnel creation fails
returns the error, yet leaves port 7001 tracked in the allocator table while
no `ActiveTunnel` exists — `tunnel.rs:170-184` propagates the
`create_tunnel` error without deallocating, so the claimed invariant (a port
is reserved only while its `ActiveTunnel` exists) is violated in this
reachable state. -/
theorem C4_port_leak_on_failed_creation :
    (get_or_create_tunnel (fun _ => true) false "a" tm0).1 = none ∧
    trackedPort (get_or_create_tunnel (fun _ => true) false "a" tm0).2.alloc
        7001 = true ∧
    (get_or_create_tunnel (fun _ => true) false "a" tm0).2.tunnels = [] ∧
    ¬ portsConsistent (get_or_create_tunnel (fun _ => true) false "a" tm0).2 := by
  refine ⟨by decide, by decide, by decide, ?_⟩
  intro h
  have h1 := (h 7001).1 (by decide)
  have h2 : (get_or_create_tunnel (fun _ => true) false "a" tm0).2.tunnels = [] := by
    decide
  rw [h2] at h1
  simp at h1

/- ### C6 / C10: connection cache discipline -/

/-- Connection creation never touches the active-connection cache; only the
caller inserts, and only on success. -/
theorem create_connection_active_eq (bindOk : Nat → Bool)
    (createOk dialOk wsOk : Bool) (conn : Connection) (st : CMState) :
    (create_connection bindOk createOk dialOk wsOk conn st).2.active =
      st.active := by
  unfold create_connection create_postgres_connection
  repeat' split
  all_goals rfl

/-- C10: `get_or_create_connection` is atomic with respect to the
active-connection cache — every failing call (unknown descriptor,
unsupported engine, tunnel failure, dial failure, workspace failure) leaves
the cache exactly as it was; an entry is inserted only on full success. -/
theorem C10_cache_atomic_on_failure (bindOk : Nat → Bool)
    (createOk dialOk wsOk : Bool) (cfg : SqlConfig) (name : String)
    (st : CMState) :
    ∀ e st2,
      get_or_create_connection bindOk createOk dialOk wsOk cfg name st =
        (.error e, st2) →
      st2.active = st.active := by
  intro e st2 h
  unfold get_or_create_connection at h
  split at h
  · simp at h
  · split at h
    · have h2 := congrArg Prod.snd h
      simp at h2
      rw [← h2]
    · split at h
      case _ e0 st0 heq =>
        have h2 := congrArg Prod.snd h
        simp at h2
        rw [← h2]
        have h3 := congrArg Prod.snd heq
        simp at h3
        rw [← h3]
        exact create_connection_active_eq bindOk createOk dialOk wsOk _ st
      case _ a st0 heq =>
        simp at h

/-- C10 witness: asking for a name absent from the configuration fails with
the configuration error and leaves the empty cache empty. -/
theorem C10_cache_atomic_on_failure_witness :
    (get_or_create_connection (fun _ => true) true true true cfgW "nope"
        cm0).2.active = cm0.active := by
  exact C10_cache_atomic_on_failure (fun _ => true) true true true cfgW "nope"
    cm0 .configError
    (get_or_create_connection (fun _ => true) true true true cfgW "nope" cm0).2
    (by decide)

/-- On success, connection creation performs exactly one database dial and
otherwise leaves the cache untouched. -/
theorem create_connection_ok_dials (bindOk : Nat → Bool)
    (createOk dialOk wsOk : Bool) (conn : Connection) (st : CMState) :
    ∀ a st2,
      create_connection bindOk createOk dialOk wsOk conn st = (.ok a, st2) →
      st2.dials = st.dials + 1 := by
  intro a st2 h
  unfold create_connection create_postgres_connection at h
  repeat' split at h
  all_goals simp at h
  all_goals rw [← h.2]

/-- C6: `get_or_create_connection` is idempotent per name. A cached name is
answered from the cache with the state (hence the dial count and the tunnel
manager) unchanged; a name absent from both the cache and the configuration
fails with the configuration error; and after a successful first call from
an uncached state — which performs exactly one dial — a second call for the
same name returns the same workspace handle and changes nothing. -/
theorem C6_get_or_create_idempotent (bindOk : Nat → Bool)
    (createOk dialOk wsOk : Bool) (cfg : SqlConfig) (name : String)
    (st : CMState) :
    (∀ e, st.active.find? (fun x => x.1 == name) = some e →
      get_or_create_connection bindOk createOk dialOk wsOk cfg name st =
        (.ok e.2.workspace, st)) ∧
    (st.active.find? (fun x => x.1 == name) = none →
      cfg.get_connection name = none →
      get_or_create_connection bindOk createOk dialOk wsOk cfg name st =
        (.error .configError, st)) ∧
    (∀ ws st1, st.active.find? (fun x => x.1 == name) = none →
      get_or_create_connection bindOk createOk dialOk wsOk cfg name st =
        (.ok ws, st1) →
      st1.dials = st.dials + 1 ∧
      get_or_create_connection bindOk createOk dialOk wsOk cfg name st1 =
        (.ok ws, st1)) := by
  refine ⟨?_, ?_, ?_⟩
  · intro e he
    unfold get_or_create_connection
    rw [he]
  · intro hfind hcfg
    unfold get_or_create_connection
    rw [hfind, hcfg]
  · intro ws st1 hfind h
    unfold get_or_create_connection at h
    split at h
    · rename_i e heq
      rw [hfind] at heq
      exact absurd heq (by simp)
    · split at h
      · simp at h
      · rename_i conn heq
        split at h
        · simp at h
        · rename_i a st0 heq2
          simp at h
          obtain ⟨hws, hst1⟩ := h
          have hdials := create_connection_ok_dials bindOk createOk dialOk
            wsOk conn st a st0 heq2
          have hact : st0.active = st.active := by
            have h5 := create_connection_active_eq bindOk createOk dialOk
              wsOk conn st
            rw [heq2] at h5
            exact h5
          constructor
          · rw [← hst1]
            simpa using hdials
          · have hfind1 : st1.active.find? (fun x => x.1 == name) =
                some (name, a) := by
              rw [← hst1]
              show (st0.active ++ [(name, a)]).find? (fun x => x.1 == name) =
                some (name, a)
              rw [List.find?_append, hact, hfind]
              simp
            unfold get_or_create_connection
            simp [hfind1, hws]

/-- C6 witness: for the configured direct connection `db1`, starting from the
empty cache, the first call dials exactly once and a second call returns the
same workspace with the state unchanged. -/
theorem C6_get_or_create_idempotent_witness :
    (get_or_create_connection (fun _ => true) true true true cfgW "db1"
        cm0).2.dials = cm0.dials + 1 ∧
    get_or_create_connection (fun _ => true) true true true cfgW "db1"
        (get_or_create_connection (fun _ => true) true true true cfgW "db1"
          cm0).2 =
      (.ok "db1",
        (get_or_create_connection (fun _ => true) true true true cfgW "db1"
          cm0).2) :=
  (C6_get_or_create_idempotent (fun _ => true) true true true cfgW "db1"
      cm0).2.2 "db1"
    (get_or_create_connection (fun _ => true) true true true cfgW "db1" cm0).2
    (by decide) (by decide)

/- ### Lemmas: substring containment -/

/-- A list starts with itself followed by anything. -/
theorem startsWithL_append_self (needle post : List Char) :
    startsWithL (needle ++ post) needle = true := by
  induction needle with
  | nil => cases post <;> rfl
  | cons c cs ih => simp [startsWithL, ih]

/-- The empty run occurs in every list. -/
theorem containsSub_nil_needle (l : List Char) : containsSub l [] = true := by
  cases l <;> rfl

/-- A framed occurrence is found by the substring scan. -/
theorem containsSub_append (pre needle post : List Char) :
    containsSub (pre ++ needle ++ post) needle = true := by
  induction pre with
  | nil =>
    cases hn : needle ++ post with
    | nil =>
      have hne : needle = [] := by
        cases needle with
        | nil => rfl
        | cons a b => simp at hn
      subst hne
      exact containsSub_nil_needle _
    | cons c rest =>
      show containsSub (needle ++ post) needle = true
      rw [hn, containsSub, ← hn, startsWithL_append_self]
      simp
  | cons p pre ih =>
    show containsSub (p :: (pre ++ needle ++ post)) needle = true
    rw [containsSub, ih]
    simp

/- ### C7 / C9: execute_query output payloads -/

/-- C7 counterexample: a successful execution of the literal SQL `SELECT 1`
(zero rows) writes a payload carrying only the execution metadata — the
executed SQL is absent from the output, so the claim that every terminal
outcome includes it fails on the success branch (`connection.rs:474-516`
never appends `actual_sql`; only the error branch at `connection.rs:543-544`
does). -/
theorem C7_success_output_omits_sql :
    (execute_query mpNone "SELECT 1" (.ok 0 "") "2024-01-01 00:00:00" "0.001"
        "/tmp/helix-dadbod/db1.sql").written =
      some ("-- Executed at: 2024-01-01 00:00:00\n" ++
        "-- Execution time: 0.001s\n" ++ "-- Rows returned: 0\n" ++ "\n" ++
        "(No rows returned)\n") ∧
    actualSqlOf mpNone (strTrim "SELECT 1") = "SELECT 1" ∧
    strContains ("-- Executed at: 2024-01-01 00:00:00\n" ++
        "-- Execution time: 0.001s\n" ++ "-- Rows returned: 0\n" ++ "\n" ++
        "(No rows returned)\n") "SELECT 1" = false := by
  refine ⟨by decide, by decide, by decide⟩

/-- C7 amended: for every non-empty query input, the output payload written
for a FAILED terminal outcome includes the SQL text actually executed (the
generated SQL for a recognized shorthand, the literal trimmed input
otherwise) in addition to the execution metadata; the success payload
carries the metadata and rendered rows but omits the executed SQL. -/
theorem C7_error_output_includes_sql (mp : String → Option String)
    (input : String) (outcome : QueryOutcome) (ts dur path : String) :
    strTrim input ≠ "" →
    ∀ m, outcome = .errDb m ∨ outcome = .errOther m →
    ∃ out, (execute_query mp input outcome ts dur path).written = some out ∧
      strContains out (actualSqlOf mp (strTrim input)) = true := by
  intro hne m hout
  have hbuild : ∀ ts2 dur2 m2 sql,
      strContains (buildErrorOutput ts2 dur2 m2 sql) sql = true := by
    intro ts2 dur2 m2 sql
    show containsSub (buildErrorOutput ts2 dur2 m2 sql).data sql.data = true
    have : (buildErrorOutput ts2 dur2 m2 sql).data =
        ("-- Executed at: " ++ ts2 ++ "\n" ++ "-- Execution time: " ++ dur2 ++
          "s\n" ++ "\n" ++ "ERROR: " ++ m2 ++ "\n" ++ "\n" ++
          "-- Generated SQL:\n").data ++ sql.data ++ "\n".data := by
      simp [buildErrorOutput]
    rw [this]
    exact containsSub_append _ _ _
  rcases hout with h | h <;> subst h <;>
    exact ⟨buildErrorOutput ts dur m (actualSqlOf mp (strTrim input)),
      by simp [execute_query, hne],
      hbuild ts dur m (actualSqlOf mp (strTrim input))⟩

/-- C7 amended witness: a failing query over the literal input `SELECT 1`
writes an output containing that SQL. -/
theorem C7_error_output_includes_sql_witness :
    ∃ out,
      (execute_query mpNone "SELECT 1" (.errDb "boom") "t" "0.001"
          "p").written = some out ∧
      strContains out (actualSqlOf mpNone (strTrim "SELECT 1")) = true :=
  C7_error_output_includes_sql mpNone "SELECT 1" (.errDb "boom") "t" "0.001"
    "p" (by decide) "boom" (Or.inl rfl)

/-- C9: for an active connection whose workspace I/O succeeds,
`execute_query` returns success to the caller for every outcome; empty (or
whitespace-only) pending input writes the reported no-query message and runs
no database query; and a failed query is rendered into the written payload —
the error message appears in the output — rather than raised. -/
theorem C9_execute_soft_failure (mp : String → Option String) (input : String)
    (outcome : QueryOutcome) (ts dur path : String) :
    (execute_query mp input outcome ts dur path).callerResult = .ok () ∧
    (strTrim input = "" →
      (execute_query mp input outcome ts dur path).ranQuery = false ∧
      (execute_query mp input outcome ts dur path).written =
        some (noQueryMsg path)) ∧
    (∀ m, strTrim input ≠ "" → outcome = .errDb m ∨ outcome = .errOther m →
      ∃ out,
        (execute_query mp input outcome ts dur path).written = some out ∧
        strContains out ("ERROR: " ++ m) = true) := by
  refine ⟨?_, ?_, ?_⟩
  · by_cases he : strTrim input = ""
    · simp [execute_query, he]
    · cases outcome <;> simp [execute_query, he]
  · intro he
    simp [execute_query, he]
  · intro m he hout
    have hbuild : ∀ ts2 dur2 sql,
        strContains (buildErrorOutput ts2 dur2 m sql) ("ERROR: " ++ m) = true := by
      intro ts2 dur2 sql
      show containsSub (buildErrorOutput ts2 dur2 m sql).data
        ("ERROR: " ++ m).data = true
      have : (buildErrorOutput ts2 dur2 m sql).data =
          ("-- Executed at: " ++ ts2 ++ "\n" ++ "-- Execution time: " ++
            dur2 ++ "s\n" ++ "\n").data ++ ("ERROR: " ++ m).data ++
            ("\n" ++ "\n" ++ "-- Generated SQL:\n" ++ sql ++ "\n").data := by
        simp [buildErrorOutput]
      rw [this]
      exact containsSub_append _ _ _
    rcases hout with h | h <;> subst h <;>
      exact ⟨buildErrorOutput ts dur m (actualSqlOf mp (strTrim input)),
        by simp [execute_query, he],
        hbuild ts dur (actualSqlOf mp (strTrim input))⟩

/-- C9 witness: whitespace-only input is reported softly with no query run,
and a failing query (`boom`) has its message rendered into the payload while
the caller still receives success. -/
theorem C9_execute_soft_failure_witness :
    ((execute_query mpNone "  " (.ok 0 "") "t" "0.001" "p").ranQuery = false ∧
      (execute_query mpNone "  " (.ok 0 "") "t" "0.001" "p").written =
        some (noQueryMsg "p")) ∧
    (∃ out,
      (execute_query mpNone "x" (.errDb "boom") "t" "0.001" "p").written =
        some out ∧
      strContains out ("ERROR: " ++ "boom") = true) :=
  ⟨(C9_execute_soft_failure mpNone "  " (.ok 0 "") "t" "0.001" "p").2.1
      (by decide),
    (C9_execute_soft_failure mpNone "x" (.errDb "boom") "t" "0.001" "p").2.2
      "boom" (by decide) (Or.inl rfl)⟩

/- ### C8: comment stripping idempotence -/

/-- C8 counterexample: stripping the input made of a dash, the block comment
`/*x*/`, and another dash removes the block comment and joins the two
surviving dashes into `--`, which a second stripping pass then treats as a
line-comment opener and deletes entirely — so `strip(strip s) ≠ strip s` at
that input. -/
theorem C8_strip_not_idempotent :
    strip_sql_comments "-/*x*/-" = "--" ∧
    strip_sql_comments (strip_sql_comments "-/*x*/-") = "" ∧
    strip_sql_comments (strip_sql_comments "-/*x*/-") ≠
      strip_sql_comments "-/*x*/-" := by
  refine ⟨by decide, by decide, by decide⟩

/- ### Lemmas and theorem for C1 -/

/-- One scan step agrees with the per-line acceptance predicate: the line
either succeeds on its own or the scan continues behind it. -/
theorem scanLines_cons (co : CryptoOracle) (hp : List Char) (sk : PublicKey)
    (line : List Char) (rest : List (List Char)) :
    scanLines co hp sk (line :: rest) =
      (lineProducesMatch co hp sk line || scanLines co hp sk rest) := by
  simp only [scanLines, lineProducesMatch]
  cases hE : (trimChars line).isEmpty || startsWithL (trimChars line) ['#'] with
  | true => simp [hE]
  | false =>
    simp only [hE, Bool.false_eq_true, if_false]
    cases hS : splitWs (trimChars line) with
    | nil => simp
    | cons p0 parts1 =>
      cases parts1 with
      | nil => simp
      | cons p1 parts2 =>
        cases parts2 with
        | nil => simp
        | cons p2 parts3 =>
          cases hHF : hostFieldMatches co hp p0 with
          | false => simp [hHF]
          | true =>
            simp only [hHF, if_true, Bool.true_and]
            cases hPK : parse_public_key co p1 p2 with
            | none => simp
            | some k =>
              cases hKM : keys_match sk k with
              | false => simp [hKM]
              | true => simp [hKM]

/-- C1: `verify_host_key` fails closed — it returns `false` (not an error)
when the known-hosts file does not exist; and when the file exists it returns
`true` exactly when some line of the file produces both a host match and a
key match, the key match being canonical base64 equality of the stored and
presented keys — so a line whose host matches but whose key fails to parse
or differs never stops the scan, and a fully scanned file with no such line
yields `false`. -/
theorem C1_verify_host_key_iff (co : CryptoOracle)
    (fileLines : List (List Char)) (hostname : List Char) (port : Nat)
    (server_key : PublicKey) :
    verify_host_key co false fileLines hostname port server_key = false ∧
    (verify_host_key co true fileLines hostname port server_key = true ↔
      fileLines.any
        (lineProducesMatch co (hostPattern hostname port) server_key) =
        true) := by
  constructor
  · rfl
  · show scanLines co (hostPattern hostname port) server_key fileLines = true ↔ _
    induction fileLines with
    | nil => simp [scanLines]
    | cons line rest ih =>
      rw [scanLines_cons, List.any_cons]
      simp only [Bool.or_eq_true, ih]

/- ### Lemmas and theorem for C2 -/

/-- Splitting never yields an empty piece list. -/
theorem splitOnChar_ne_nil (sep : Char) (l : List Char) :
    splitOnChar sep l ≠ [] := by
  cases l with
  | nil => simp [splitOnChar]
  | cons c cs =>
    by_cases h : c = sep
    · simp [splitOnChar, h]
    · simp only [splitOnChar, if_neg h]
      cases splitOnChar sep cs <;> simp

/-- A separator-free list splits into itself alone. -/
theorem splitOnChar_no_sep (sep : Char) :
    ∀ l : List Char, sep ∉ l → splitOnChar sep l = [l] := by
  intro l
  induction l with
  | nil => intro _; rfl
  | cons c cs ih =>
    intro h
    have hc : ¬ c = sep := fun hcs => h (hcs ▸ List.mem_cons_self c cs)
    have hcs : sep ∉ cs := fun hm => h (List.mem_cons_of_mem c hm)
    simp only [splitOnChar, if_neg hc, ih hcs]

/-- Splitting a list that opens with a separator-free piece followed by a
separator peels the piece off. -/
theorem splitOnChar_append_sep (sep : Char) :
    ∀ l rest : List Char, sep ∉ l →
      splitOnChar sep (l ++ sep :: rest) = l :: splitOnChar sep rest := by
  intro l
  induction l with
  | nil => intro rest _; simp [splitOnChar]
  | cons c cs ih =>
    intro rest h
    have hc : ¬ c = sep := fun hcs => h (hcs ▸ List.mem_cons_self c cs)
    have hcs : sep ∉ cs := fun hm => h (List.mem_cons_of_mem c hm)
    simp only [List.cons_append, splitOnChar, if_neg hc, List.append_eq,
      ih rest hcs]

/-- Every piece produced by splitting is separator-free. -/
theorem splitOnChar_pieces_no_sep (sep : Char) :
    ∀ l p, p ∈ splitOnChar sep l → sep ∉ p := by
  intro l
  induction l with
  | nil =>
    intro p hp
    simp [splitOnChar] at hp
    simp [hp]
  | cons c cs ih =>
    intro p hp
    by_cases hc : c = sep
    · simp only [splitOnChar, if_pos hc] at hp
      rcases List.mem_cons.1 hp with h | h
      · simp [h]
      · exact ih p h
    · simp only [splitOnChar, if_neg hc] at hp
      cases hsp : splitOnChar sep cs with
      | nil => exact absurd hsp (splitOnChar_ne_nil sep cs)
      | cons r rs =>
        rw [hsp] at hp
        rcases List.mem_cons.1 hp with h | h
        · subst h
          intro hmem
          rcases List.mem_cons.1 hmem with h | h
          · exact hc h.symm
          · exact ih r (hsp ▸ List.mem_cons_self r rs) h
        · exact ih p (hsp ▸ List.mem_cons_of_mem r h)

/-- Joining the split pieces with the separator restores the original list. -/
theorem joinSep_splitOnChar (sep : Char) :
    ∀ l : List Char, joinSep sep (splitOnChar sep l) = l := by
  intro l
  induction l with
  | nil => rfl
  | cons c cs ih =>
    by_cases hc : c = sep
    · subst hc
      simp only [splitOnChar, if_pos rfl]
      cases hsp : splitOnChar c cs with
      | nil => exact absurd hsp (splitOnChar_ne_nil c cs)
      | cons r rs =>
        show joinSep c ([] :: r :: rs) = c :: cs
        rw [joinSep]
        rw [hsp] at ih
        simp [ih]
    · simp only [splitOnChar, if_neg hc]
      cases hsp : splitOnChar sep cs with
      | nil => exact absurd hsp (splitOnChar_ne_nil sep cs)
      | cons r rs =>
        rw [hsp] at ih
        cases rs with
        | nil =>
          show joinSep sep [c :: r] = c :: cs
          simp only [joinSep] at ih ⊢
          rw [ih]
        | cons q rs2 =>
          show joinSep sep ((c :: r) :: q :: rs2) = c :: cs
          rw [joinSep] at ih ⊢
          rw [List.cons_append, ih]

/-- C2: the lookup string is the bare hostname exactly for port 22 and the
bracketed `[hostname]:port` form otherwise; and a hashed host-field matches
the lookup string (inside `verify_host_key`, with a salt-decoding error
counting as no match) precisely when it has the exact `|1|salt|hash` shape,
the salt decodes, and the base64-encoded HMAC-SHA1 of the lookup string under
the decoded salt equals the stored hash exactly. -/
theorem C2_lookup_and_hashed_entry (hostname : List Char) (port : Nat)
    (co : CryptoOracle) (lookup field : List Char) :
    hostPattern hostname port =
      (if port = 22 then hostname
       else ('[' :: hostname) ++ [']', ':'] ++ (Nat.repr port).data) ∧
    (hashedFieldMatches co lookup field = true ↔
      SpecHashedMatch co lookup field) := by
  constructor
  · by_cases h : port = 22 <;> simp [hostPattern, h]
  · constructor
    · intro h
      unfold hashedFieldMatches at h
      cases hch : check_hashed_host co lookup field with
      | none => rw [hch] at h; simp at h
      | some m =>
        rw [hch] at h
        simp at h
        subst h
        unfold check_hashed_host at hch
        cases hsp : splitOnChar '|' field with
        | nil => exact absurd hsp (splitOnChar_ne_nil _ _)
        | cons p0 parts1 =>
          rw [hsp] at hch
          rcases parts1 with _ | ⟨p1, _ | ⟨p2, _ | ⟨p3, _ | ⟨p4, rest⟩⟩⟩⟩ <;>
            simp only at hch
          · simp at hch
          · simp at hch
          · simp at hch
          · by_cases hshape : p0 = [] ∧ p1 = ['1']
            · rw [if_pos hshape] at hch
              cases hdec : co.b64decode p2 with
              | none => rw [hdec] at hch; simp at hch
              | some saltBytes =>
                rw [hdec] at hch
                simp at hch
                refine ⟨p2, p3, ?_, ?_, ?_, saltBytes, hdec, hch⟩
                · have hjoin := joinSep_splitOnChar '|' field
                  rw [hsp] at hjoin
                  obtain ⟨h0, h1⟩ := hshape
                  subst h0; subst h1
                  simp only [joinSep] at hjoin
                  rw [← hjoin]
                  rfl
                · exact splitOnChar_pieces_no_sep '|' field p2
                    (by rw [hsp]; simp)
                · exact splitOnChar_pieces_no_sep '|' field p3
                    (by rw [hsp]; simp)
            · rw [if_neg hshape] at hch
              simp at hch
          · simp at hch
    · rintro ⟨salt, hash, hfield, hsalt, hhash, saltBytes, hdec, henc⟩
      have hsp : splitOnChar '|' field = [[], ['1'], salt, hash] := by
        subst hfield
        have e1 : (['|', '1', '|'] ++ salt ++ '|' :: hash : List Char) =
            [] ++ '|' :: (['1'] ++ '|' :: (salt ++ '|' :: hash)) := by simp
        rw [e1, splitOnChar_append_sep '|' [] _ (by simp),
          splitOnChar_append_sep '|' ['1'] _ (by simp),
          splitOnChar_append_sep '|' salt _ hsalt,
          splitOnChar_no_sep '|' hash hhash]
      unfold hashedFieldMatches check_hashed_host
      rw [hsp]
      simp [hdec, henc]

/- ### Lemmas for C3: glob matching -/

/-- Pointwise-equal predicates give equal `any` scans. -/
theorem list_any_congr {α : Type} (l : List α) (f g : α → Bool)
    (h : ∀ x ∈ l, f x = g x) : l.any f = l.any g := by
  induction l with
  | nil => rfl
  | cons a l ih =>
    simp only [List.any_cons, h a (List.mem_cons_self a l)]
    rw [ih fun x hx => h x (List.mem_cons_of_mem a hx)]

/-- Scanning the nonempty suffixes is the existence of a positive-length-
bounded drop satisfying the predicate. -/
theorem neTails_any_iff (f : List Char → Bool) :
    ∀ h : List Char,
      (neTails h).any f = true ↔ ∃ k, k < h.length ∧ f (h.drop k) = true := by
  intro h
  induction h with
  | nil => simp [neTails]
  | cons c t ih =>
    simp only [neTails, List.any_cons, Bool.or_eq_true, ih]
    constructor
    · rintro (h0 | ⟨k, hk, hf⟩)
      · exact ⟨0, by simp, h0⟩
      · exact ⟨k + 1, by simpa using hk, hf⟩
    · rintro ⟨k, hk, hf⟩
      cases k with
      | zero => exact Or.inl hf
      | succ k => exact Or.inr ⟨k, by simpa using hk, hf⟩

/-- Scanning all suffixes is the existence of a bounded drop satisfying the
predicate. -/
theorem tailsAll_any_iff (f : List Char → Bool) :
    ∀ h : List Char,
      (tailsAll h).any f = true ↔ ∃ k, k ≤ h.length ∧ f (h.drop k) = true := by
  intro h
  induction h with
  | nil => simp [tailsAll]
  | cons c t ih =>
    simp only [tailsAll, List.any_cons, Bool.or_eq_true, ih]
    constructor
    · rintro (h0 | ⟨k, hk, hf⟩)
      · exact ⟨0, by simp, h0⟩
      · exact ⟨k + 1, by simpa using hk, hf⟩
    · rintro ⟨k, hk, hf⟩
      cases k with
      | zero => exact Or.inl hf
      | succ k => exact Or.inr ⟨k, by simpa using hk, hf⟩

/-- A bare `*` matches every input under the spec glob semantics. -/
theorem specGlobMatch_star_nil : ∀ h : List Char,
    specGlobMatch ['*'] h = true := by
  intro h
  have hrw : specGlobMatch ['*'] h =
      (tailsAll h).any fun t => specGlobMatch [] t := by
    simp [specGlobMatch]
  rw [hrw, tailsAll_any_iff]
  exact ⟨h.length, le_rfl, by simp [List.drop_length, specGlobMatch]⟩

/-- Under the spec glob semantics a wildcard-free pattern matches exactly
itself. -/
theorem specGlobMatch_no_wild : ∀ p h : List Char, '*' ∉ p → '?' ∉ p →
    (specGlobMatch p h = true ↔ h = p) := by
  intro p
  induction p with
  | nil =>
    intro h _ _
    simp [specGlobMatch, List.isEmpty_iff]
  | cons c ps ih =>
    intro h hs hq
    have hcs : ¬ c = '*' := fun hh => hs (hh ▸ List.mem_cons_self c ps)
    have hcq : ¬ c = '?' := fun hh => hq (hh ▸ List.mem_cons_self c ps)
    have hs2 : '*' ∉ ps := fun hm => hs (List.mem_cons_of_mem c hm)
    have hq2 : '?' ∉ ps := fun hm => hq (List.mem_cons_of_mem c hm)
    simp only [specGlobMatch, if_neg hcs, if_neg hcq]
    cases h with
    | nil => simp
    | cons hc t =>
      simp only [Bool.and_eq_true, beq_iff_eq, ih t hs2 hq2, List.cons.injEq]

/-- Under the spec glob semantics a pattern opening with anything but `*`
rejects the empty input. -/
theorem specGlobMatch_cons_nil (c : Char) (ps : List Char) (hc : c ≠ '*') :
    specGlobMatch (c :: ps) [] = false := by
  by_cases hq : c = '?' <;> simp [specGlobMatch, if_neg hc, hq]

/-- The code's wildcard loop on a wildcard-free pattern is equality. -/
theorem patternLoop_no_wild : ∀ p h : List Char, '*' ∉ p → '?' ∉ p →
    (patternLoop p h = true ↔ h = p) := by
  intro p
  induction p with
  | nil =>
    intro h _ _
    simp [patternLoop, List.isEmpty_iff]
  | cons c ps ih =>
    intro h hs hq
    have hcs : ¬ c = '*' := fun hh => hs (hh ▸ List.mem_cons_self c ps)
    have hcq : ¬ c = '?' := fun hh => hq (hh ▸ List.mem_cons_self c ps)
    have hs2 : '*' ∉ ps := fun hm => hs (List.mem_cons_of_mem c hm)
    have hq2 : '?' ∉ ps := fun hm => hq (List.mem_cons_of_mem c hm)
    simp only [patternLoop, if_neg hcs, if_neg hcq]
    cases h with
    | nil => simp
    | cons hc t =>
      by_cases hhc : hc = c
      · subst hhc
        simp [ih t hs2 hq2]
      · simp [hhc, Ne.symm hhc]

/-- The `pattern_match` entry point agrees with its wildcard loop: the two
preliminary special cases coincide with what the loop computes. -/
theorem pattern_match_eq_patternLoop (h p : List Char) :
    pattern_match h p = patternLoop p h := by
  unfold pattern_match
  by_cases h1 : p = ['*']
  · subst h1
    simp [patternLoop]
  · rw [if_neg (by simpa using h1)]
    by_cases h2 : (!(p.contains '*') && !(p.contains '?')) = true
    · rw [if_pos h2]
      simp only [Bool.and_eq_true, Bool.not_eq_true'] at h2
      have hs : '*' ∉ p := by simpa using h2.1
      have hq : '?' ∉ p := by simpa using h2.2
      exact bool_of_iff (by rw [beq_iff_eq, patternLoop_no_wild p h hs hq])
    · rw [if_neg h2]

/-- Double-star freedom passes to the tail. -/
theorem noDoubleStar_tail (c : Char) (ps : List Char)
    (h : noDoubleStar (c :: ps) = true) : noDoubleStar ps = true := by
  cases ps with
  | nil => rfl
  | cons d ps2 =>
    simp only [noDoubleStar, Bool.and_eq_true] at h
    exact h.2

/-- After a star, a double-star-free pattern does not continue with a star. -/
theorem noDoubleStar_star_head (d : Char) (ps : List Char)
    (h : noDoubleStar ('*' :: d :: ps) = true) : d ≠ '*' := by
  intro hdd
  subst hdd
  rw [noDoubleStar] at h
  simp at h

/-- Core equivalence for C3 amended: on patterns without consecutive stars,
the code's wildcard loop computes exactly the spec's glob semantics. The
divergence in general is that after consuming a `*` the code only retries on
NONEMPTY suffixes of the input (`known_hosts.rs:162-171`), so a remaining
pattern that must match the empty run (only possible for a run of stars)
fails; fuel induction on the total length. -/
theorem patternLoop_eq_spec : ∀ n p h, p.length + h.length ≤ n →
    noDoubleStar p = true → patternLoop p h = specGlobMatch p h := by
  intro n
  induction n with
  | zero =>
    intro p h hlen _
    have hp : p = [] := List.length_eq_zero.1 (by omega)
    have hh : h = [] := List.length_eq_zero.1 (by omega)
    subst hp; subst hh
    rfl
  | succ n ih =>
    intro p h hlen hnds
    cases p with
    | nil => rfl
    | cons c ps =>
      by_cases hstar : c = '*'
      · subst hstar
        cases ps with
        | nil =>
          simp only [patternLoop, if_pos rfl, if_pos trivial]
          rw [specGlobMatch_star_nil h]
        | cons d ps2 =>
          have hd : d ≠ '*' := noDoubleStar_star_head d ps2 hnds
          have hnds2 : noDoubleStar (d :: ps2) = true :=
            noDoubleStar_tail '*' (d :: ps2) hnds
          have hlhs : patternLoop ('*' :: d :: ps2) h =
              (neTails h).any fun h2 => pattern_match h2 (d :: ps2) := rfl
          have hrhs : specGlobMatch ('*' :: d :: ps2) h =
              (tailsAll h).any fun t => specGlobMatch (d :: ps2) t := rfl
          rw [hlhs, hrhs]
          apply bool_of_iff
          rw [neTails_any_iff, tailsAll_any_iff]
          constructor
          · rintro ⟨k, hk, hf⟩
            refine ⟨k, le_of_lt hk, ?_⟩
            rw [pattern_match_eq_patternLoop] at hf
            rw [← ih (d :: ps2) (h.drop k)
              (by have := List.length_drop k h; simp at hlen ⊢; omega)
              hnds2]
            exact hf
          · rintro ⟨k, hk, hf⟩
            rcases Nat.lt_or_ge k h.length with hlt | hge
            · refine ⟨k, hlt, ?_⟩
              rw [pattern_match_eq_patternLoop,
                ih (d :: ps2) (h.drop k)
                  (by have := List.length_drop k h; simp at hlen ⊢; omega)
                  hnds2]
              exact hf
            · exfalso
              have hdrop : h.drop k = [] :=
                List.drop_eq_nil_of_le (by omega)
              rw [hdrop, specGlobMatch_cons_nil d ps2 hd] at hf
              exact Bool.false_ne_true hf
      · by_cases hq : c = '?'
        · subst hq
          have hnds2 : noDoubleStar ps = true := noDoubleStar_tail '?' ps hnds
          cases h with
          | nil =>
            rw [specGlobMatch_cons_nil '?' ps hstar]
            simp [patternLoop, if_neg hstar]
          | cons hc t =>
            simp only [patternLoop, specGlobMatch, if_neg hstar, if_pos rfl]
            exact ih ps t (by simp at hlen ⊢; omega) hnds2
        · have hnds2 : noDoubleStar ps = true := noDoubleStar_tail c ps hnds
          cases h with
          | nil =>
            rw [specGlobMatch_cons_nil c ps hstar]
            simp [patternLoop, if_neg hstar, if_neg hq]
          | cons hc t =>
            simp only [patternLoop, specGlobMatch, if_neg hstar, if_neg hq]
            by_cases hhc : hc = c
            · subst hhc
              simp only [if_pos rfl, beq_self_eq_true, Bool.true_and]
              exact ih ps t (by simp at hlen ⊢; omega) hnds2
            · simp [hhc]

/-- C3 counterexample: for the lookup string `a` and host-field `a**` the
code's matcher rejects while the spec's glob semantics (in which `*` matches
the empty run) accepts — after consuming the first `*` the code at
`known_hosts.rs:162-171` only retries the remaining pattern `*` on nonempty
suffixes of the exhausted input, never on the empty run, and returns false. -/
theorem C3_double_star_counterexample :
    check_plaintext_host ['a'] ['a', '*', '*'] = false ∧
    specHostFieldMatch ['a'] ['a', '*', '*'] = true ∧
    pattern_match ['a'] ['a', '*', '*'] = false ∧
    specGlobMatch ['a', '*', '*'] ['a'] = true := by
  refine ⟨by decide, by decide, by decide, by decide⟩

/-- C3 amended: for every lookup string and plaintext host-field none of
whose comma-separated patterns contains two consecutive `*` characters, the
host-field matches exactly when at least one comma-separated pattern equals
the lookup string or matches it under the spec glob semantics (`*` matches
any run including the empty run, `?` exactly one character, resolved
recursively); in particular `*.example.com` matches `db.example.com` but not
`example.com`, `*` matches anything, and `ex?mple.com` matches `example.com`
only with exactly one filler character. -/
theorem C3_plaintext_host_glob (lookup field : List Char)
    (hnds : ∀ pat ∈ splitOnChar ',' field, noDoubleStar pat = true) :
    check_plaintext_host lookup field = specHostFieldMatch lookup field := by
  unfold check_plaintext_host specHostFieldMatch
  apply list_any_congr
  intro pat hp
  rw [pattern_match_eq_patternLoop,
    patternLoop_eq_spec (pat.length + lookup.length) pat lookup le_rfl
      (hnds pat hp)]

/-- C3 amended witness: the claim's own examples, evaluated through the
amended equivalence. -/
theorem C3_plaintext_host_glob_witness :
    (check_plaintext_host "db.example.com".data "*.example.com".data =
        specHostFieldMatch "db.example.com".data "*.example.com".data ∧
      check_plaintext_host "db.example.com".data "*.example.com".data =
        true) ∧
    (check_plaintext_host "example.com".data "*.example.com".data =
        specHostFieldMatch "example.com".data "*.example.com".data ∧
      check_plaintext_host "example.com".data "*.example.com".data = false) ∧
    (check_plaintext_host "example.com".data "ex?mple.com".data =
        specHostFieldMatch "example.com".data "ex?mple.com".data ∧
      check_plaintext_host "example.com".data "ex?mple.com".data = true) :=
  ⟨⟨C3_plaintext_host_glob "db.example.com".data "*.example.com".data
      (by decide), by decide⟩,
    ⟨C3_plaintext_host_glob "example.com".data "*.example.com".data
      (by decide), by decide⟩,
    ⟨C3_plaintext_host_glob "example.com".data "ex?mple.com".data
      (by decide), by decide⟩⟩

/- ### Lemmas for C8: trimming -/

/-- The first character surviving a left trim is not whitespace. -/
theorem trimLeft_head_not_ws : ∀ l c cs, trimLeft l = c :: cs →
    isWsChar c = false := by
  intro l
  induction l with
  | nil => intro c cs h; simp [trimLeft] at h
  | cons a as ih =>
    intro c cs h
    by_cases hw : isWsChar a
    · rw [trimLeft, List.dropWhile_cons, if_pos hw] at h
      exact ih c cs h
    · rw [trimLeft, List.dropWhile_cons, if_neg hw] at h
      cases h
      exact Bool.eq_false_iff.2 hw

/-- Right trimming yields a sublist. -/
theorem trimRight_sublist : ∀ l : List Char, List.Sublist (trimRight l) l := by
  intro l
  induction l with
  | nil => simp [trimRight]
  | cons c cs ih =>
    rw [trimRight]
    cases htr : trimRight cs with
    | nil =>
      by_cases hw : isWsChar c
      · simp [hw]
      · simp [hw]
    | cons r rs =>
      rw [htr] at ih
      exact ih.cons₂ c

/-- Right trimming is idempotent. -/
theorem trimRight_idem : ∀ l : List Char, trimRight (trimRight l) = trimRight l := by
  intro l
  induction l with
  | nil => rfl
  | cons c cs ih =>
    rw [trimRight]
    cases htr : trimRight cs with
    | nil =>
      by_cases hw : isWsChar c
      · simp [hw, trimRight]
      · simp [hw, trimRight]
    | cons r rs =>
      rw [htr] at ih
      rw [trimRight, ih]

/-- A right-trimmed nonempty list keeps its head. -/
theorem trimRight_head : ∀ l c cs, trimRight l = c :: cs →
    ∃ cs0, l = c :: cs0 := by
  intro l
  cases l with
  | nil => intro c cs h; simp [trimRight] at h
  | cons a as =>
    intro c cs h
    rw [trimRight] at h
    cases htr : trimRight as with
    | nil =>
      rw [htr] at h
      by_cases hw : isWsChar a
      · rw [if_pos hw] at h; cases h
      · rw [if_neg hw] at h
        cases h
        exact ⟨as, rfl⟩
    | cons r rs =>
      rw [htr] at h
      cases h
      exact ⟨as, rfl⟩

/-- A right trim never ends in whitespace. -/
theorem trimRight_getLast_not_ws : ∀ l x,
    (trimRight l).getLast? = some x → isWsChar x = false := by
  intro l
  induction l with
  | nil => intro x h; simp [trimRight] at h
  | cons c cs ih =>
    intro x h
    rw [trimRight] at h
    cases htr : trimRight cs with
    | nil =>
      rw [htr] at h
      by_cases hw : isWsChar c
      · rw [if_pos hw] at h; simp at h
      · rw [if_neg hw] at h
        simp at h
        rw [← h]
        exact Bool.eq_false_iff.2 hw
    | cons r rs =>
      rw [htr] at h
      rw [List.getLast?_cons_cons] at h
      rw [← htr] at h
      exact ih x h

/-- A list not ending in whitespace is fixed by the right trim. -/
theorem trimRight_fix : ∀ l : List Char,
    (∀ x, l.getLast? = some x → isWsChar x = false) → trimRight l = l := by
  intro l
  induction l with
  | nil => intro _; rfl
  | cons c cs ih =>
    intro h
    rw [trimRight]
    cases cs with
    | nil =>
      have := h c (by simp)
      simp [trimRight, this]
    | cons d ds =>
      have hcs : trimRight (d :: ds) = d :: ds := by
        apply ih
        intro x hx
        exact h x (by rw [List.getLast?_cons_cons]; exact hx)
      rw [hcs]

/-- Trimming both ends is idempotent. -/
theorem trimChars_idem (l : List Char) : trimChars (trimChars l) = trimChars l := by
  unfold trimChars
  cases htr : trimRight (trimLeft l) with
  | nil => rfl
  | cons c cs =>
    obtain ⟨cs0, hu⟩ := trimRight_head (trimLeft l) c cs htr
    have hc : isWsChar c = false := trimLeft_head_not_ws l c cs0 hu
    have htl : trimLeft (c :: cs) = c :: cs := by
      rw [trimLeft, List.dropWhile_cons, if_neg (by simp [hc])]
    rw [htl, ← htr, trimRight_idem]

/-- Characters of a trim come from the original list. -/
theorem trimChars_subset {x : Char} {l : List Char} (h : x ∈ trimChars l) :
    x ∈ l := by
  have h1 : x ∈ trimLeft l :=
    (trimRight_sublist (trimLeft l)).subset h
  exact (List.dropWhile_sublist isWsChar).subset h1

/-- A trim-fixed nonempty list opens with a non-whitespace character. -/
theorem trimmed_head_not_ws {m : List Char} {c : Char} {cs : List Char}
    (hfix : trimChars m = m) (hm : m = c :: cs) : isWsChar c = false := by
  have h1 : trimRight (trimLeft m) = c :: cs := by
    rw [← trimChars]; rw [hfix, hm]
  obtain ⟨cs0, hu⟩ := trimRight_head (trimLeft m) c cs h1
  exact trimLeft_head_not_ws m c cs0 hu

/-- A trim-fixed list ends (when nonempty) with a non-whitespace character. -/
theorem trimmed_getLast_not_ws {m : List Char} {x : Char}
    (hfix : trimChars m = m) (hx : m.getLast? = some x) :
    isWsChar x = false := by
  have h1 : (trimRight (trimLeft m)).getLast? = some x := by
    rw [← trimChars, hfix]; exact hx
  exact trimRight_getLast_not_ws (trimLeft m) x h1

/-- A list with a non-whitespace head and a non-whitespace last character is
trim-fixed. -/
theorem trimChars_fix {c : Char} {cs : List Char}
    (hc : isWsChar c = false)
    (hlast : ∀ x, (c :: cs).getLast? = some x → isWsChar x = false) :
    trimChars (c :: cs) = c :: cs := by
  unfold trimChars
  have htl : trimLeft (c :: cs) = c :: cs := by
    rw [trimLeft, List.dropWhile_cons, if_neg (by simp [hc])]
  rw [htl, trimRight_fix _ hlast]

/- ### Lemmas for C8: space collapsing -/

/-- The space-collapsing pass is idempotent. -/
theorem collapseSpaces_idem : ∀ (l : List Char) (b : Bool),
    collapseSpaces b (collapseSpaces b l) = collapseSpaces b l := by
  intro l
  induction l with
  | nil => intro b; rfl
  | cons c cs ih =>
    intro b
    by_cases hc : c = ' '
    · subst hc
      cases b with
      | true => simp only [collapseSpaces, if_pos rfl, if_pos trivial, ih]
      | false =>
        simp only [collapseSpaces, if_pos rfl, if_neg (by decide : ¬ (false = true))]
        simp only [collapseSpaces, if_pos rfl, if_pos trivial, ih]
    · simp only [collapseSpaces, if_neg hc, ih]

/-- Collapsing yields a sublist. -/
theorem collapseSpaces_sublist : ∀ (l : List Char) (b : Bool),
    List.Sublist (collapseSpaces b l) l := by
  intro l
  induction l with
  | nil => intro b; simp [collapseSpaces]
  | cons c cs ih =>
    intro b
    by_cases hc : c = ' '
    · subst hc
      cases b with
      | true =>
        simp only [collapseSpaces, if_pos rfl, if_pos trivial]
        exact (ih true).cons ' '
      | false =>
        simp only [collapseSpaces, if_pos rfl, if_neg (by decide : ¬ (false = true))]
        exact (ih true).cons₂ ' '
    · simp only [collapseSpaces, if_neg hc]
      exact (ih false).cons₂ c

/-- Collapsing keeps a non-whitespace final character in final position. -/
theorem collapseSpaces_getLast : ∀ (l : List Char) (b : Bool) (x : Char),
    l.getLast? = some x → isWsChar x = false →
    (collapseSpaces b l).getLast? = some x := by
  intro l
  induction l with
  | nil => intro b x h _; simp at h
  | cons c cs ih =>
    intro b x h hx
    cases cs with
    | nil =>
      simp only [List.getLast?_singleton, Option.some.injEq] at h
      subst h
      have hc : ¬ c = ' ' := by
        intro he
        rw [he] at hx
        simp [isWsChar] at hx
      rw [collapseSpaces, if_neg hc]
      rfl
    | cons d ds =>
      rw [List.getLast?_cons_cons] at h
      have htail : ∀ b2, (collapseSpaces b2 (d :: ds)).getLast? = some x :=
        fun b2 => ih b2 x h hx
      have hstep : ∀ (a : Char) (b2 : Bool),
          (a :: collapseSpaces b2 (d :: ds)).getLast? = some x := by
        intro a b2
        have ht := htail b2
        cases hM : collapseSpaces b2 (d :: ds) with
        | nil => rw [hM] at ht; simp at ht
        | cons e es =>
          rw [List.getLast?_cons_cons, ← hM]
          exact ht
      by_cases hc : c = ' '
      · subst hc
        rw [collapseSpaces, if_pos rfl]
        cases b with
        | true =>
          rw [if_pos rfl]
          exact htail true
        | false =>
          rw [if_neg (by decide : ¬ (false = true))]
          exact hstep ' ' true
      · rw [collapseSpaces, if_neg hc]
        exact hstep c false

/-- Collapsing distributes over a newline: the flag resets after it. -/
theorem collapseSpaces_append_newline : ∀ (l : List Char) (b : Bool)
    (rest : List Char),
    collapseSpaces b (l ++ '\n' :: rest) =
      collapseSpaces b l ++ '\n' :: collapseSpaces false rest := by
  intro l
  induction l with
  | nil =>
    intro b rest
    simp only [List.nil_append, collapseSpaces,
      if_neg (by decide : ¬ ('\n' = ' '))]
  | cons c cs ih =>
    intro b rest
    by_cases hc : c = ' '
    · subst hc
      cases b with
      | true => simp [collapseSpaces, ih]
      | false => simp [collapseSpaces, ih]
    · simp [collapseSpaces, hc, ih]

/- ### Lemmas for C8: line joining and flushing -/

/-- Joining good lines never gives the empty list. -/
theorem joinSep_ne_nil (ms : List (List Char)) (h0 : ms ≠ [])
    (h1 : ∀ l ∈ ms, l ≠ []) : joinSep '\n' ms ≠ [] := by
  cases ms with
  | nil => exact absurd rfl h0
  | cons m ms2 =>
    cases ms2 with
    | nil => exact h1 m (by simp)
    | cons q ms3 =>
      show m ++ '\n' :: joinSep '\n' (q :: ms3) ≠ []
      simp

/-- Appending one more line to a nonempty join. -/
theorem joinSep_append_single (sep : Char) :
    ∀ (ms : List (List Char)) (l : List Char), ms ≠ [] →
      joinSep sep (ms ++ [l]) = joinSep sep ms ++ sep :: l := by
  intro ms
  induction ms with
  | nil => intro l h; exact absurd rfl h
  | cons m ms2 ih =>
    intro l _
    cases ms2 with
    | nil => rfl
    | cons q ms3 =>
      show joinSep sep (m :: ((q :: ms3) ++ [l])) =
        (m ++ sep :: joinSep sep (q :: ms3)) ++ sep :: l
      cases ms3 with
      | nil =>
        simp [joinSep]
      | cons r ms4 =>
        have := ih l (by simp)
        show m ++ sep :: joinSep sep ((q :: r :: ms4) ++ [l]) =
          (m ++ sep :: joinSep sep (q :: r :: ms4)) ++ sep :: l
        rw [this]
        simp

/-- Flushing the empty buffer changes nothing. -/
theorem pushLine_nil (res : List Char) : pushLine res [] = res := rfl

/-- Flushing a buffer onto a join of good lines appends its trimmed content
as one more line (or nothing, when it trims away). -/
theorem pushLine_join (ms : List (List Char)) (cur : List Char)
    (hg : ∀ l ∈ ms, goodLine l) :
    pushLine (joinSep '\n' ms) cur = joinSep '\n' (ms ++ optLine cur) := by
  unfold pushLine optLine
  by_cases ht : trimChars cur = []
  · simp [ht]
  · rw [if_neg ht, if_neg ht]
    by_cases hm : ms = []
    · subst hm
      simp [joinSep]
    · have hne : joinSep '\n' ms ≠ [] :=
        joinSep_ne_nil ms hm fun l hl => (hg l hl).1
      rw [if_neg hne, joinSep_append_single '\n' ms (trimChars cur) hm]

/-- The lines contributed by flushing a newline-free buffer are good. -/
theorem optLine_good (cur : List Char) (hc : '\n' ∉ cur) :
    ∀ l ∈ optLine cur, goodLine l := by
  unfold optLine
  by_cases ht : trimChars cur = []
  · simp [ht]
  · rw [if_neg ht]
    intro l hl
    simp at hl
    subst hl
    exact ⟨ht, trimChars_idem cur, fun hmem => hc (trimChars_subset hmem)⟩

/-- Goodness of a line list extends across an appended flush. -/
theorem good_append_optLine (ms : List (List Char)) (cur : List Char)
    (hg : ∀ l ∈ ms, goodLine l) (hc : '\n' ∉ cur) :
    ∀ l ∈ ms ++ optLine cur, goodLine l := by
  intro l hl
  rcases List.mem_append.1 hl with h | h
  · exact hg l h
  · exact optLine_good cur hc l h

/- ### Lemmas for C8: the stripping loop emits joined good lines -/

/-- Whatever the input and comment state, the stripping loop starting from a
newline-free buffer and a result that is a join of good lines produces a
join of good lines. -/
theorem stripLoop_shape : ∀ (n : Nat) (input : List Char), input.length ≤ n →
    ∀ (inMl inSl : Bool) (cur : List Char) (ms : List (List Char)),
    '\n' ∉ cur → (∀ l ∈ ms, goodLine l) →
    ∃ ms2, (∀ l ∈ ms2, goodLine l) ∧
      stripLoop inMl inSl cur (joinSep '\n' ms) input = joinSep '\n' ms2 := by
  intro n
  induction n with
  | zero =>
    intro input hlen inMl inSl cur ms hcur hg
    have : input = [] := List.length_eq_zero.1 (by omega)
    subst this
    exact ⟨ms ++ optLine cur, good_append_optLine ms cur hg hcur,
      pushLine_join ms cur hg⟩
  | succ n ihn =>
    intro input hlen inMl inSl cur ms hcur hg
    cases input with
    | nil =>
      exact ⟨ms ++ optLine cur, good_append_optLine ms cur hg hcur,
        pushLine_join ms cur hg⟩
    | cons ch rest =>
      cases rest with
      | nil =>
        refine ⟨ms ++ optLine (if inMl = true ∨ inSl = true ∨ ch = '\n'
          then cur else cur ++ [ch]), ?_, ?_⟩
        · by_cases hb : inMl = true ∨ inSl = true ∨ ch = '\n'
          · rw [if_pos hb]
            exact good_append_optLine ms cur hg hcur
          · rw [if_neg hb]
            push_neg at hb
            refine good_append_optLine ms (cur ++ [ch]) hg ?_
            intro hmem
            rcases List.mem_append.1 hmem with h | h
            · exact hcur h
            · simp at h
              exact hb.2.2 h.symm
        · rw [stripLoop]
          by_cases h1 : inMl = true
          · rw [if_pos h1, if_pos (by left; exact h1), pushLine_join ms cur hg]
          · rw [if_neg h1]
            by_cases h2 : inSl = true
            · rw [if_pos h2]
              by_cases h3 : ch = '\n'
              · rw [if_pos h3, pushLine_nil,
                  if_pos (by right; left; exact h2), pushLine_join ms cur hg]
              · rw [if_neg h3, if_pos (by right; left; exact h2),
                  pushLine_join ms cur hg]
            · rw [if_neg h2]
              by_cases h3 : ch = '\n'
              · rw [if_pos h3, pushLine_nil,
                  if_pos (by right; right; exact h3),
                  pushLine_join ms cur hg]
              · have hcond : ¬ (inMl = true ∨ inSl = true ∨ ch = '\n') := by
                  rintro (h | h | h)
                  · exact h1 h
                  · exact h2 h
                  · exact h3 h
                rw [if_neg h3, if_neg hcond,
                  pushLine_join ms (cur ++ [ch]) hg]
      | cons ch2 rest2 =>
        rw [stripLoop]
        by_cases h1 : inMl = true
        · rw [if_pos h1]
          by_cases hcl : ch = '*' ∧ ch2 = '/'
          · rw [if_pos hcl]
            exact ihn rest2 (by simp at hlen ⊢; omega) false inSl cur ms hcur hg
          · rw [if_neg hcl]
            exact ihn (ch2 :: rest2) (by simp at hlen ⊢; omega) inMl inSl cur
              ms hcur hg
        · rw [if_neg h1]
          by_cases h2 : inSl = true
          · rw [if_pos h2]
            by_cases h3 : ch = '\n'
            · rw [if_pos h3, pushLine_join ms cur hg]
              exact ihn (ch2 :: rest2) (by simp at hlen ⊢; omega) inMl false []
                (ms ++ optLine cur) (by simp)
                (good_append_optLine ms cur hg hcur)
            · rw [if_neg h3]
              exact ihn (ch2 :: rest2) (by simp at hlen ⊢; omega) inMl inSl
                cur ms hcur hg
          · rw [if_neg h2]
            by_cases h4 : ch = '-' ∧ ch2 = '-'
            · rw [if_pos h4]
              exact ihn rest2 (by simp at hlen ⊢; omega) inMl true cur ms hcur
                hg
            · rw [if_neg h4]
              by_cases h5 : ch = '/' ∧ ch2 = '*'
              · rw [if_pos h5]
                exact ihn rest2 (by simp at hlen ⊢; omega) true inSl cur ms
                  hcur hg
              · rw [if_neg h5]
                by_cases h3 : ch = '\n'
                · rw [if_pos h3, pushLine_join ms cur hg]
                  exact ihn (ch2 :: rest2) (by simp at hlen ⊢; omega) inMl
                    inSl [] (ms ++ optLine cur) (by simp)
                    (good_append_optLine ms cur hg hcur)
                · rw [if_neg h3]
                  refine ihn (ch2 :: rest2) (by simp at hlen ⊢; omega) inMl
                    inSl (cur ++ [ch]) ms ?_ hg
                  intro hmem
                  rcases List.mem_append.1 hmem with h | h
                  · exact hcur h
                  · simp at h
                    exact h3 h.symm

/- ### Lemmas for C8: opener-free inputs scan as plain text -/

/-- Substring occurrences survive prefixing. -/
theorem containsSub_append_left : ∀ (x y n : List Char),
    containsSub y n = true → containsSub (x ++ y) n = true := by
  intro x
  induction x with
  | nil => intro y n h; simpa using h
  | cons a x2 ih =>
    intro y n h
    show containsSub (a :: (x2 ++ y)) n = true
    rw [containsSub]
    simp only [Bool.or_eq_true]
    right
    exact ih y n h

/-- Opener freedom passes to suffixes. -/
theorem openerFree_suffix (x y : List Char)
    (h : openerFree (x ++ y) = true) : openerFree y = true := by
  unfold openerFree at h ⊢
  simp only [Bool.and_eq_true, Bool.not_eq_true'] at h ⊢
  constructor
  · cases hy : containsSub y ['-', '-'] with
    | false => rfl
    | true => rw [containsSub_append_left x y _ hy] at h; simp at h
  · cases hy : containsSub y ['/', '*'] with
    | false => rfl
    | true => rw [containsSub_append_left x y _ hy] at h; simp at h

/-- Opener freedom passes over one character. -/
theorem openerFree_cons (c : Char) (r : List Char)
    (h : openerFree (c :: r) = true) : openerFree r = true :=
  openerFree_suffix [c] r h

/-- An opener-free list never opens with a comment starter. -/
theorem openerFree_two (c1 c2 : Char) (r : List Char)
    (h : openerFree (c1 :: c2 :: r) = true) :
    ¬ (c1 = '-' ∧ c2 = '-') ∧ ¬ (c1 = '/' ∧ c2 = '*') := by
  unfold openerFree at h
  simp only [Bool.and_eq_true, Bool.not_eq_true'] at h
  constructor
  · rintro ⟨rfl, rfl⟩
    have : containsSub ('-' :: '-' :: r) ['-', '-'] = true := by
      rw [containsSub]
      simp [startsWithL]
    rw [this] at h
    simp at h
  · rintro ⟨rfl, rfl⟩
    have : containsSub ('/' :: '*' :: r) ['/', '*'] = true := by
      rw [containsSub]
      simp [startsWithL]
    rw [this] at h
    simp at h

/-- Outside comments, an opener-free newline-free line is copied verbatim
into the current-line buffer. -/
theorem stripLoop_plain_line : ∀ (l : List Char), '\n' ∉ l →
    ∀ (cur res rest : List Char), openerFree (l ++ rest) = true →
    stripLoop false false cur res (l ++ rest) =
      stripLoop false false (cur ++ l) res rest := by
  intro l
  induction l with
  | nil => intro _ cur res rest _; simp
  | cons c l2 ih =>
    intro hnl cur res rest hfree
    have hcn : ¬ c = '\n' := fun h => hnl (h ▸ List.mem_cons_self c l2)
    have hnl2 : '\n' ∉ l2 := fun h => hnl (List.mem_cons_of_mem c h)
    cases hlr : l2 ++ rest with
    | nil =>
      obtain ⟨hl2, hrest⟩ := List.append_eq_nil.1 hlr
      subst hl2
      subst hrest
      show stripLoop false false cur res [c] =
        stripLoop false false (cur ++ [c]) res []
      rw [stripLoop, stripLoop]
      rw [if_neg (by decide : ¬ (false = true)),
        if_neg (by decide : ¬ (false = true)), if_neg hcn]
    | cons d rr =>
      have hshow : (c :: l2) ++ rest = c :: d :: rr := by
        rw [List.cons_append, hlr]
      rw [hshow]
      have hfree2 : openerFree (c :: d :: rr) = true := by rw [← hshow]; exact hfree
      obtain ⟨hnd, hns⟩ := openerFree_two c d rr hfree2
      rw [stripLoop]
      rw [if_neg (by decide : ¬ (false = true)),
        if_neg (by decide : ¬ (false = true)), if_neg hnd, if_neg hns,
        if_neg hcn]
      have hfree3 : openerFree (l2 ++ rest) = true := by
        rw [hlr]
        exact openerFree_cons c (d :: rr) hfree2
      rw [← hlr]
      rw [ih hnl2 (cur ++ [c]) res rest hfree3]
      rw [List.append_assoc]
      rfl

/-- A good line flushes as exactly itself. -/
theorem pushLine_good (ps : List (List Char)) (l : List Char)
    (hps : ∀ p ∈ ps, goodLine p) (hl : goodLine l) :
    pushLine (joinSep '\n' ps) l = joinSep '\n' (ps ++ [l]) := by
  rw [pushLine_join ps l hps]
  unfold optLine
  rw [hl.2.1, if_neg hl.1]

/-- Re-scanning a join of good, opener-free lines reproduces it behind any
already-emitted good lines. -/
theorem stripLoop_good_lines : ∀ (ms : List (List Char)),
    (∀ l ∈ ms, goodLine l) →
    ∀ ps : List (List Char), (∀ l ∈ ps, goodLine l) →
    openerFree (joinSep '\n' ms) = true →
    stripLoop false false [] (joinSep '\n' ps) (joinSep '\n' ms) =
      joinSep '\n' (ps ++ ms) := by
  intro ms
  induction ms with
  | nil =>
    intro _ ps _ _
    show pushLine (joinSep '\n' ps) [] = joinSep '\n' (ps ++ [])
    rw [pushLine_nil, List.append_nil]
  | cons l ms2 ih =>
    intro hg ps hps hfree
    have hgl : goodLine l := hg l (List.mem_cons_self l ms2)
    cases ms2 with
    | nil =>
      show stripLoop false false [] (joinSep '\n' ps) l =
        joinSep '\n' (ps ++ [l])
      have hline := stripLoop_plain_line l hgl.2.2 [] (joinSep '\n' ps) []
        (by rw [List.append_nil]; exact hfree)
      rw [List.append_nil] at hline
      rw [hline]
      show pushLine (joinSep '\n' ps) ([] ++ l) = joinSep '\n' (ps ++ [l])
      rw [List.nil_append]
      exact pushLine_good ps l hps hgl
    | cons q ms3 =>
      have hg2 : ∀ x ∈ q :: ms3, goodLine x :=
        fun x hx => hg x (List.mem_cons_of_mem l hx)
      have hJne : joinSep '\n' (q :: ms3) ≠ [] :=
        joinSep_ne_nil (q :: ms3) (by simp) fun x hx => (hg2 x hx).1
      have hjoin : joinSep '\n' (l :: q :: ms3) =
          l ++ '\n' :: joinSep '\n' (q :: ms3) := rfl
      rw [hjoin] at hfree ⊢
      rw [stripLoop_plain_line l hgl.2.2 [] (joinSep '\n' ps)
        ('\n' :: joinSep '\n' (q :: ms3)) hfree, List.nil_append]
      cases hJ : joinSep '\n' (q :: ms3) with
      | nil => exact absurd hJ hJne
      | cons d rr =>
        rw [stripLoop]
        rw [if_neg (by decide : ¬ (false = true)),
          if_neg (by decide : ¬ (false = true)),
          if_neg (by simp : ¬ ('\n' = '-' ∧ d = '-')),
          if_neg (by simp : ¬ ('\n' = '/' ∧ d = '*')), if_pos rfl]
        rw [pushLine_good ps l hps hgl, ← hJ]
        have hfree2 : openerFree (joinSep '\n' (q :: ms3)) = true := by
          have : l ++ '\n' :: joinSep '\n' (q :: ms3) =
              (l ++ ['\n']) ++ joinSep '\n' (q :: ms3) := by simp
          rw [this] at hfree
          exact openerFree_suffix _ _ hfree
        have hps2 : ∀ x ∈ ps ++ [l], goodLine x := by
          intro x hx
          rcases List.mem_append.1 hx with h | h
          · exact hps x h
          · simp at h
            subst h
            exact hgl
        rw [ih hg2 (ps ++ [l]) hps2 hfree2]
        congr 1
        simp

/-- Collapsing spaces preserves line goodness. -/
theorem collapse_goodLine (l : List Char) (h : goodLine l) :
    goodLine (collapseSpaces false l) := by
  obtain ⟨hne, hfix, hnl⟩ := h
  cases l with
  | nil => exact absurd rfl hne
  | cons c cs =>
    have hc : isWsChar c = false := trimmed_head_not_ws hfix rfl
    have hcsp : ¬ c = ' ' := by
      intro he
      rw [he] at hc
      simp [isWsChar] at hc
    have hcoll : collapseSpaces false (c :: cs) =
        c :: collapseSpaces false cs := by
      rw [collapseSpaces, if_neg hcsp]
    cases hy : (c :: cs).getLast? with
    | none => simp at hy
    | some y =>
      have hyw : isWsChar y = false := trimmed_getLast_not_ws hfix hy
      have hylast : (collapseSpaces false (c :: cs)).getLast? = some y :=
        collapseSpaces_getLast (c :: cs) false y hy hyw
      refine ⟨by rw [hcoll]; simp, ?_, ?_⟩
      · rw [hcoll]
        apply trimChars_fix hc
        intro x hx
        rw [← hcoll] at hx
        rw [hylast] at hx
        cases hx
        exact hyw
      · intro hmem
        exact hnl ((collapseSpaces_sublist (c :: cs) false).subset hmem)

/-- Collapsing distributes over the newline join. -/
theorem collapse_joinSep : ∀ ms : List (List Char),
    collapseSpaces false (joinSep '\n' ms) =
      joinSep '\n' (ms.map (collapseSpaces false)) := by
  intro ms
  induction ms with
  | nil => rfl
  | cons l ms2 ih =>
    cases ms2 with
    | nil => rfl
    | cons q ms3 =>
      show collapseSpaces false (l ++ '\n' :: joinSep '\n' (q :: ms3)) =
        joinSep '\n' (collapseSpaces false l ::
          (q :: ms3).map (collapseSpaces false))
      rw [collapseSpaces_append_newline, ih]
      rfl

/-- C8 amended: comment stripping is idempotent on every input whose
stripped output contains neither `--` nor the block-comment opener as a
substring: for such inputs `strip(strip s) = strip s`. (When stripping
creates a new opener — by deleting a comment between two dashes, or between
a slash and a star — the second pass strips further, as the counterexample
shows.) -/
theorem C8_strip_idempotent_openerFree (s : String)
    (hfree : openerFree (strip_sql_comments s).data = true) :
    strip_sql_comments (strip_sql_comments s) = strip_sql_comments s := by
  have hcore : stripAll (stripAll s.data) = stripAll s.data := by
    obtain ⟨ms, hgood, hr⟩ := stripLoop_shape s.data.length s.data le_rfl
      false false [] [] (by simp) (by simp)
    have hstrip : stripAll s.data =
        joinSep '\n' (ms.map (collapseSpaces false)) := by
      rw [stripAll]
      rw [show (joinSep '\n' [] : List Char) = [] from rfl] at hr
      rw [hr, collapse_joinSep]
    have hgood2 : ∀ l ∈ ms.map (collapseSpaces false), goodLine l := by
      intro l hl
      rcases List.mem_map.1 hl with ⟨m, hm, rfl⟩
      exact collapse_goodLine m (hgood m hm)
    have hfree2 :
        openerFree (joinSep '\n' (ms.map (collapseSpaces false))) = true := by
      rw [← hstrip]
      exact hfree
    have hscan := stripLoop_good_lines (ms.map (collapseSpaces false)) hgood2
      [] (by simp) hfree2
    rw [show (joinSep '\n' [] : List Char) = [] from rfl, List.nil_append]
      at hscan
    show collapseSpaces false
      (stripLoop false false [] [] (stripAll s.data)) = stripAll s.data
    rw [hstrip, hscan, collapse_joinSep, List.map_map]
    have hmaps : ms.map (collapseSpaces false ∘ collapseSpaces false) =
        ms.map (collapseSpaces false) := by
      apply List.map_congr_left
      intro m _
      exact collapseSpaces_idem m false
    rw [hmaps]
  show (⟨stripAll (strip_sql_comments s).data⟩ : String) = ⟨stripAll s.data⟩
  exact congrArg String.mk hcore

/-- C8 amended witness: an input mixing a line comment and a block comment
whose stripped output (`a b` and `c` on two lines) has no comment openers;
a second strip changes nothing. -/
theorem C8_strip_idempotent_openerFree_witness :
    openerFree (strip_sql_comments "a /*x*/ b -- t\nc").data = true ∧
    strip_sql_comments (strip_sql_comments "a /*x*/ b -- t\nc") =
      strip_sql_comments "a /*x*/ b -- t\nc" :=
  ⟨by decide, C8_strip_idempotent_openerFree "a /*x*/ b -- t\nc" (by decide)⟩
